import Mathlib

/-!
# Verification of the credential-encryption and test-data subsystem

A shallow embedding, in Lean 4, of the encryption / secure-token utilities
(`scripts/encryptPassword.js`, class `PasswordEncryption`), the sensitive-field
walker and password validator (`utils/passwordEncryption.js`, class
`PasswordEncryptionHelper`), and the test-data lifecycle manager
(`utils/testDataManager.js`, class `TestDataManager`).

Modelling conventions:
* JavaScript strings are modelled as `List Char`; raw byte buffers as
  `List Nat` with every element `< 256`.
* The AES-256 block primitive supplied by the Node `crypto` module is the one
  external component not implemented here; it is abstracted as a keyed block
  permutation (`BlockCipher`) with the correctness laws the library guarantees.
  CBC chaining, PKCS#7 padding, SHA-256, HMAC-SHA256, hex, base64 and UTF-8
  transport are implemented concretely.
* Randomness (IVs, `Math.random`, faker fields) is passed in explicitly, since
  the JavaScript functions obtain it from ambient impure sources.
* A JavaScript function that can throw is modelled with `Except String`
  (the `String` being the thrown error's message); `try/catch` becomes a
  `match` on that result.
-/

namespace PWFW

/-! ## JavaScript string helpers -/

/-- `String.prototype.split` with a single-character separator, JS semantics:
the result always has one more element than the number of separators,
and `''.split(sep)` is `['']`. -/
def splitChar (sep : Char) : List Char → List (List Char)
  | [] => [[]]
  | c :: cs =>
    if c = sep then [] :: splitChar sep cs
    else
      match splitChar sep cs with
      | h :: t => (c :: h) :: t
      | [] => [[c]]

theorem splitChar_ne_nil (sep : Char) (cs : List Char) : splitChar sep cs ≠ [] := by
  induction cs with
  | nil => simp [splitChar]
  | cons c cs ih =>
    simp only [splitChar]
    split
    · simp
    · match h : splitChar sep cs with
      | [] => simp
      | x :: t => simp

theorem splitChar_no_sep {sep : Char} {cs : List Char} (h : sep ∉ cs) :
    splitChar sep cs = [cs] := by
  induction cs with
  | nil => rfl
  | cons c cs ih =>
    simp only [List.mem_cons, not_or] at h
    have hc : ¬ c = sep := fun hc => h.1 hc.symm
    rw [splitChar, if_neg hc, ih h.2]

theorem splitChar_append_sep {sep : Char} {a b : List Char} (ha : sep ∉ a) :
    splitChar sep (a ++ sep :: b) = a :: splitChar sep b := by
  induction a with
  | nil => simp [splitChar]
  | cons c a ih =>
    simp only [List.mem_cons, not_or] at ha
    have hc : ¬ c = sep := fun hc => ha.1 hc.symm
    rw [List.cons_append, splitChar, if_neg hc, ih ha.2]

/-- ASCII `String.prototype.toLowerCase` (the keys compared in this code base
are ASCII identifiers, for which JS and ASCII lowercasing agree). -/
def jsToLower (cs : List Char) : List Char := cs.map Char.toLower

/-- `String.prototype.includes(pat)` : substring test. -/
def jsIncludes (pat : List Char) : List Char → Bool
  | [] => decide (pat = [])
  | c :: cs => decide (pat = (c :: cs).take pat.length) || jsIncludes pat cs

/-! ## Hexadecimal encoding (Node `Buffer.toString('hex')` / `Buffer.from(_, 'hex')`) -/

def isHexDigit (c : Char) : Bool :=
  decide (('0' ≤ c ∧ c ≤ '9') ∨ ('a' ≤ c ∧ c ≤ 'f') ∨ ('A' ≤ c ∧ c ≤ 'F'))

/-- Numeric value of a hex digit (`0` on non-digits; guarded by `isHexDigit`). -/
def hexVal (c : Char) : Nat :=
  if '0' ≤ c ∧ c ≤ '9' then c.toNat - '0'.toNat
  else if 'a' ≤ c ∧ c ≤ 'f' then c.toNat - 'a'.toNat + 10
  else if 'A' ≤ c ∧ c ≤ 'F' then c.toNat - 'A'.toNat + 10
  else 0

/-- Lowercase hex digit for a value `< 16` (Node emits lowercase hex). -/
def hexDigit (n : Nat) : Char :=
  if n < 10 then Char.ofNat ('0'.toNat + n) else Char.ofNat ('a'.toNat + (n - 10))

/-- One byte as two lowercase hex digits. -/
def byteToHex (b : Nat) : List Char := [hexDigit (b / 16), hexDigit (b % 16)]

/-- `Buffer.toString('hex')`. -/
def hexEncode (bs : List Nat) : List Char := bs.flatMap byteToHex

/-- `Buffer.from(s, 'hex')`: Node decodes hex pairs left to right and stops at
the first invalid pair (it never throws); a trailing lone digit is dropped. -/
def jsHexDecode : List Char → List Nat
  | c1 :: c2 :: rest =>
    if isHexDigit c1 && isHexDigit c2 then
      (16 * hexVal c1 + hexVal c2) :: jsHexDecode rest
    else []
  | _ => []

theorem hexVal_hexDigit : ∀ n < 16, hexVal (hexDigit n) = n := by decide

theorem isHexDigit_hexDigit : ∀ n < 16, isHexDigit (hexDigit n) = true := by decide

theorem hexDigit_ne_colon : ∀ n < 16, hexDigit n ≠ ':' := by decide

theorem hexDigit_ne_dot : ∀ n < 16, hexDigit n ≠ '.' := by decide

theorem mem_byteToHex {b : Nat} {c : Char} (hb : b < 256) (h : c ∈ byteToHex b) :
    ∃ n < 16, c = hexDigit n := by
  simp only [byteToHex, List.mem_cons, List.mem_singleton, List.not_mem_nil,
    or_false] at h
  rcases h with h | h
  · exact ⟨b / 16, by omega, h⟩
  · exact ⟨b % 16, Nat.mod_lt _ (by omega), h⟩

theorem colon_not_mem_hexEncode {bs : List Nat} (hbs : ∀ b ∈ bs, b < 256) :
    ':' ∉ hexEncode bs := by
  intro hmem
  rw [hexEncode, List.mem_flatMap] at hmem
  obtain ⟨b, hmem, hb⟩ := hmem
  obtain ⟨n, hn, hc⟩ := mem_byteToHex (hbs b hmem) hb
  exact hexDigit_ne_colon n hn hc.symm

theorem jsHexDecode_hexEncode {bs : List Nat} (h : ∀ b ∈ bs, b < 256) :
    jsHexDecode (hexEncode bs) = bs := by
  induction bs with
  | nil => rfl
  | cons b bs ih =>
    have hb : b < 256 := h b (by simp)
    have hdiv : b / 16 < 16 := by omega
    have hmod : b % 16 < 16 := Nat.mod_lt _ (by omega)
    show jsHexDecode (hexDigit (b / 16) :: hexDigit (b % 16) :: hexEncode bs) = b :: bs
    simp only [jsHexDecode, isHexDigit_hexDigit _ hdiv, isHexDigit_hexDigit _ hmod,
      Bool.and_self, if_true]
    rw [hexVal_hexDigit _ hdiv, hexVal_hexDigit _ hmod,
      ih (fun x hx => h x (by simp [hx]))]
    congr 1
    omega

theorem hexEncode_length (bs : List Nat) : (hexEncode bs).length = 2 * bs.length := by
  induction bs with
  | nil => rfl
  | cons b bs ih =>
    show (hexDigit (b / 16) :: hexDigit (b % 16) :: hexEncode bs).length
        = 2 * (b :: bs).length
    simp only [List.length_cons, ih]
    omega

theorem mem_hexEncode_isHexDigit {bs : List Nat} {c : Char} (hbs : ∀ b ∈ bs, b < 256)
    (h : c ∈ hexEncode bs) : isHexDigit c = true := by
  rw [hexEncode, List.mem_flatMap] at h
  obtain ⟨b, hmem, hb⟩ := h
  obtain ⟨n, hn, hc⟩ := mem_byteToHex (hbs b hmem) hb
  exact hc ▸ isHexDigit_hexDigit n hn

/-! ## UTF-8 transport

Node's `cipher.update(s, 'utf8')`, `Buffer.from(s)` and `createHmac(...).update(s)`
all consume the UTF-8 bytes of a JS string; `decipher.update(_, 'hex', 'utf8')`
produces a string from UTF-8 bytes.  The encoder below is the standard UTF-8
encoding; the decoder is its strict partial inverse (an invalid byte sequence is
modelled as a decode failure). -/

def utf8EncodeChar (c : Char) : List Nat :=
  if c.toNat < 0x80 then [c.toNat]
  else if c.toNat < 0x800 then [0xC0 + c.toNat / 64, 0x80 + c.toNat % 64]
  else if c.toNat < 0x10000 then
    [0xE0 + c.toNat / 4096, 0x80 + c.toNat / 64 % 64, 0x80 + c.toNat % 64]
  else
    [0xF0 + c.toNat / 262144, 0x80 + c.toNat / 4096 % 64, 0x80 + c.toNat / 64 % 64,
      0x80 + c.toNat % 64]

def utf8Encode (cs : List Char) : List Nat := cs.flatMap utf8EncodeChar

/-- Decode a single UTF-8 sequence starting at lead byte `b1`, returning the
character and the unconsumed bytes. -/
def utf8DecodeOne (b1 : Nat) (rest : List Nat) : Option (Char × List Nat) :=
  if b1 < 0x80 then some (Char.ofNat b1, rest)
  else if b1 < 0xC0 then none
  else if b1 < 0xE0 then
    match rest with
    | b2 :: rest2 =>
      if 0x80 ≤ b2 ∧ b2 < 0xC0 then
        some (Char.ofNat ((b1 - 0xC0) * 64 + (b2 - 0x80)), rest2)
      else none
    | [] => none
  else if b1 < 0xF0 then
    match rest with
    | b2 :: b3 :: rest3 =>
      if (0x80 ≤ b2 ∧ b2 < 0xC0) ∧ (0x80 ≤ b3 ∧ b3 < 0xC0) then
        some (Char.ofNat ((b1 - 0xE0) * 4096 + (b2 - 0x80) * 64 + (b3 - 0x80)), rest3)
      else none
    | _ => none
  else if b1 < 0xF8 then
    match rest with
    | b2 :: b3 :: b4 :: rest4 =>
      if (0x80 ≤ b2 ∧ b2 < 0xC0) ∧ (0x80 ≤ b3 ∧ b3 < 0xC0) ∧ (0x80 ≤ b4 ∧ b4 < 0xC0) then
        some (Char.ofNat ((b1 - 0xF0) * 262144 + (b2 - 0x80) * 4096
          + (b3 - 0x80) * 64 + (b4 - 0x80)), rest4)
      else none
    | _ => none
  else none

/-- Fuelled decoding loop; the fuel only needs to dominate the byte count. -/
def utf8DecodeLoop : Nat → List Nat → Option (List Char)
  | _, [] => some []
  | 0, _ :: _ => none
  | fuel + 1, b1 :: rest =>
    match utf8DecodeOne b1 rest with
    | some (c, rest2) => (utf8DecodeLoop fuel rest2).map (c :: ·)
    | none => none

def utf8Decode (l : List Nat) : Option (List Char) := utf8DecodeLoop l.length l

theorem char_toNat_lt (c : Char) : c.toNat < 1114112 := by
  rcases c.valid with h | ⟨_, h⟩
  · exact Nat.lt_trans h (by norm_num)
  · exact h

theorem utf8EncodeChar_bytes_lt {c : Char} : ∀ b ∈ utf8EncodeChar c, b < 256 := by
  intro b hb
  have hv := char_toNat_lt c
  simp only [utf8EncodeChar] at hb
  split at hb
  · simp only [List.mem_singleton] at hb
    omega
  · split at hb
    · simp only [List.mem_cons, List.mem_singleton, List.not_mem_nil, or_false] at hb
      rcases hb with h | h <;> omega
    · split at hb
      · simp only [List.mem_cons, List.mem_singleton, List.not_mem_nil, or_false] at hb
        rcases hb with h | h | h <;> omega
      · simp only [List.mem_cons, List.mem_singleton, List.not_mem_nil, or_false] at hb
        rcases hb with h | h | h | h <;> omega

theorem utf8Encode_bytes_lt {cs : List Char} : ∀ b ∈ utf8Encode cs, b < 256 := by
  intro b hb
  rw [utf8Encode, List.mem_flatMap] at hb
  obtain ⟨c, _, hb⟩ := hb
  exact utf8EncodeChar_bytes_lt b hb

theorem utf8EncodeChar_shape (c : Char) : ∃ b1 brest, utf8EncodeChar c = b1 :: brest
    ∧ ∀ rest, utf8DecodeOne b1 (brest ++ rest) = some (c, rest) := by
  have hv := char_toNat_lt c
  by_cases h1 : c.toNat < 0x80
  · refine ⟨c.toNat, [], by simp [utf8EncodeChar, h1], fun rest => ?_⟩
    rw [List.nil_append, utf8DecodeOne.eq_def, if_pos h1, Char.ofNat_toNat]
  · by_cases h2 : c.toNat < 0x800
    · refine ⟨0xC0 + c.toNat / 64, [0x80 + c.toNat % 64],
        by rw [utf8EncodeChar, if_neg h1, if_pos h2], fun rest => ?_⟩
      have e1 : ¬ (0xC0 + c.toNat / 64 < 0x80) := by omega
      have e2 : ¬ (0xC0 + c.toNat / 64 < 0xC0) := by omega
      have e3 : 0xC0 + c.toNat / 64 < 0xE0 := by omega
      have e4 : 0x80 ≤ 0x80 + c.toNat % 64 ∧ 0x80 + c.toNat % 64 < 0xC0 := by omega
      rw [List.cons_append, List.nil_append, utf8DecodeOne.eq_def, if_neg e1,
        if_neg e2, if_pos e3]
      simp only [if_pos e4]
      rw [show (0xC0 + c.toNat / 64 - 0xC0) * 64 + (0x80 + c.toNat % 64 - 0x80)
          = c.toNat from by omega, Char.ofNat_toNat]
    · by_cases h3 : c.toNat < 0x10000
      · refine ⟨0xE0 + c.toNat / 4096, [0x80 + c.toNat / 64 % 64, 0x80 + c.toNat % 64],
          by rw [utf8EncodeChar, if_neg h1, if_neg h2, if_pos h3], fun rest => ?_⟩
        have e1 : ¬ (0xE0 + c.toNat / 4096 < 0x80) := by omega
        have e2 : ¬ (0xE0 + c.toNat / 4096 < 0xC0) := by omega
        have e3 : ¬ (0xE0 + c.toNat / 4096 < 0xE0) := by omega
        have e4 : 0xE0 + c.toNat / 4096 < 0xF0 := by omega
        have e5 : (0x80 ≤ 0x80 + c.toNat / 64 % 64 ∧ 0x80 + c.toNat / 64 % 64 < 0xC0)
            ∧ (0x80 ≤ 0x80 + c.toNat % 64 ∧ 0x80 + c.toNat % 64 < 0xC0) := by omega
        rw [List.cons_append, List.cons_append, List.nil_append, utf8DecodeOne.eq_def,
          if_neg e1, if_neg e2, if_neg e3, if_pos e4]
        simp only [if_pos e5]
        rw [show (0xE0 + c.toNat / 4096 - 0xE0) * 4096
            + (0x80 + c.toNat / 64 % 64 - 0x80) * 64 + (0x80 + c.toNat % 64 - 0x80)
            = c.toNat from by omega, Char.ofNat_toNat]
      · refine ⟨0xF0 + c.toNat / 262144, [0x80 + c.toNat / 4096 % 64,
          0x80 + c.toNat / 64 % 64, 0x80 + c.toNat % 64],
          by rw [utf8EncodeChar, if_neg h1, if_neg h2, if_neg h3], fun rest => ?_⟩
        have e1 : ¬ (0xF0 + c.toNat / 262144 < 0x80) := by omega
        have e2 : ¬ (0xF0 + c.toNat / 262144 < 0xC0) := by omega
        have e3 : ¬ (0xF0 + c.toNat / 262144 < 0xE0) := by omega
        have e4 : ¬ (0xF0 + c.toNat / 262144 < 0xF0) := by omega
        have e5 : 0xF0 + c.toNat / 262144 < 0xF8 := by omega
        have e6 : (0x80 ≤ 0x80 + c.toNat / 4096 % 64 ∧ 0x80 + c.toNat / 4096 % 64 < 0xC0)
            ∧ (0x80 ≤ 0x80 + c.toNat / 64 % 64 ∧ 0x80 + c.toNat / 64 % 64 < 0xC0)
            ∧ (0x80 ≤ 0x80 + c.toNat % 64 ∧ 0x80 + c.toNat % 64 < 0xC0) := by omega
        rw [List.cons_append, List.cons_append, List.cons_append, List.nil_append,
          utf8DecodeOne.eq_def, if_neg e1, if_neg e2, if_neg e3, if_neg e4, if_pos e5]
        simp only [if_pos e6]
        rw [show (0xF0 + c.toNat / 262144 - 0xF0) * 262144
            + (0x80 + c.toNat / 4096 % 64 - 0x80) * 4096
            + (0x80 + c.toNat / 64 % 64 - 0x80) * 64 + (0x80 + c.toNat % 64 - 0x80)
            = c.toNat from by omega, Char.ofNat_toNat]

theorem utf8DecodeLoop_encode (cs : List Char) :
    ∀ fuel, (utf8Encode cs).length ≤ fuel → utf8DecodeLoop fuel (utf8Encode cs) = some cs := by
  induction cs with
  | nil => intro fuel _; cases fuel <;> rfl
  | cons c cs ih =>
    intro fuel hf
    obtain ⟨b1, brest, henc, hdec⟩ := utf8EncodeChar_shape c
    rw [show utf8Encode (c :: cs) = utf8EncodeChar c ++ utf8Encode cs from
      List.flatMap_cons .., henc, List.cons_append] at hf ⊢
    cases fuel with
    | zero => simp at hf
    | succ f =>
      rw [utf8DecodeLoop, hdec (utf8Encode cs)]
      simp only [List.length_cons, List.length_append] at hf
      simp only []
      rw [ih f (by omega)]
      rfl

theorem utf8Decode_utf8Encode (cs : List Char) : utf8Decode (utf8Encode cs) = some cs :=
  utf8DecodeLoop_encode cs _ le_rfl

/-- One step of validating UTF-8 decoding, as V8 performs it for
`Buffer.prototype.toString('utf8')`: in addition to the byte-shape checks it
rejects overlong encodings (lead bytes `0xC0`/`0xC1`, and 3- and 4-byte values
below their range), surrogate code points and values beyond `U+10FFFF`. -/
def utf8DecodeOneStrict (b1 : Nat) (rest : List Nat) : Option (Char × List Nat) :=
  if b1 < 0x80 then some (Char.ofNat b1, rest)
  else if b1 < 0xC2 then none
  else if b1 < 0xE0 then
    match rest with
    | b2 :: rest2 =>
      if 0x80 ≤ b2 ∧ b2 < 0xC0 then
        some (Char.ofNat ((b1 - 0xC0) * 64 + (b2 - 0x80)), rest2)
      else none
    | [] => none
  else if b1 < 0xF0 then
    match rest with
    | b2 :: b3 :: rest3 =>
      if ((0x80 ≤ b2 ∧ b2 < 0xC0) ∧ (0x80 ≤ b3 ∧ b3 < 0xC0))
          ∧ 0x800 ≤ (b1 - 0xE0) * 4096 + (b2 - 0x80) * 64 + (b3 - 0x80)
          ∧ ¬ (0xD800 ≤ (b1 - 0xE0) * 4096 + (b2 - 0x80) * 64 + (b3 - 0x80)
              ∧ (b1 - 0xE0) * 4096 + (b2 - 0x80) * 64 + (b3 - 0x80) < 0xE000) then
        some (Char.ofNat ((b1 - 0xE0) * 4096 + (b2 - 0x80) * 64 + (b3 - 0x80)), rest3)
      else none
    | _ => none
  else if b1 < 0xF5 then
    match rest with
    | b2 :: b3 :: b4 :: rest4 =>
      if ((0x80 ≤ b2 ∧ b2 < 0xC0) ∧ (0x80 ≤ b3 ∧ b3 < 0xC0) ∧ (0x80 ≤ b4 ∧ b4 < 0xC0))
          ∧ 0x10000 ≤ (b1 - 0xF0) * 262144 + (b2 - 0x80) * 4096
              + (b3 - 0x80) * 64 + (b4 - 0x80)
          ∧ (b1 - 0xF0) * 262144 + (b2 - 0x80) * 4096
              + (b3 - 0x80) * 64 + (b4 - 0x80) < 0x110000 then
        some (Char.ofNat ((b1 - 0xF0) * 262144 + (b2 - 0x80) * 4096
          + (b3 - 0x80) * 64 + (b4 - 0x80)), rest4)
      else none
    | _ => none
  else none

/-- The loop of `Buffer.prototype.toString('utf8')`: a lossy decode that
replaces every invalid sequence by `U+FFFD` and resumes at the following
byte.  (V8's maximal-subpart rule may merge several consecutive invalid
bytes into one `U+FFFD` where this model emits one per byte; the two agree
on every scalar character decoded, in particular on all ASCII, since an
error never consumes a byte below `0x80`.) -/
def bufToStringLoop : Nat → List Nat → List Char
  | 0, _ => []
  | _ + 1, [] => []
  | fuel + 1, b1 :: rest =>
    match utf8DecodeOneStrict b1 rest with
    | some (c, rest2) => c :: bufToStringLoop fuel rest2
    | none => Char.ofNat 0xFFFD :: bufToStringLoop fuel rest

def bufToString (l : List Nat) : List Char := bufToStringLoop l.length l

/-- Every encoded character decodes strictly: genuine UTF-8 is never overlong,
never a surrogate (excluded by `Char`'s validity) and never out of range. -/
theorem utf8EncodeChar_shape_strict (c : Char) : ∃ b1 brest,
    utf8EncodeChar c = b1 :: brest
    ∧ ∀ rest, utf8DecodeOneStrict b1 (brest ++ rest) = some (c, rest) := by
  have hv := char_toNat_lt c
  have hsur : c.toNat < 0xD800 ∨ 0xDFFF < c.toNat := by
    rcases c.valid with h | ⟨h0, _⟩
    · exact Or.inl h
    · exact Or.inr h0
  by_cases h1 : c.toNat < 0x80
  · refine ⟨c.toNat, [], by simp [utf8EncodeChar, h1], fun rest => ?_⟩
    rw [List.nil_append, utf8DecodeOneStrict.eq_def, if_pos h1, Char.ofNat_toNat]
  · by_cases h2 : c.toNat < 0x800
    · refine ⟨0xC0 + c.toNat / 64, [0x80 + c.toNat % 64],
        by rw [utf8EncodeChar, if_neg h1, if_pos h2], fun rest => ?_⟩
      have e1 : ¬ (0xC0 + c.toNat / 64 < 0x80) := by omega
      have e2 : ¬ (0xC0 + c.toNat / 64 < 0xC2) := by omega
      have e3 : 0xC0 + c.toNat / 64 < 0xE0 := by omega
      have e4 : 0x80 ≤ 0x80 + c.toNat % 64 ∧ 0x80 + c.toNat % 64 < 0xC0 := by omega
      rw [List.cons_append, List.nil_append, utf8DecodeOneStrict.eq_def, if_neg e1,
        if_neg e2, if_pos e3]
      simp only [if_pos e4]
      rw [show (0xC0 + c.toNat / 64 - 0xC0) * 64 + (0x80 + c.toNat % 64 - 0x80)
          = c.toNat from by omega, Char.ofNat_toNat]
    · by_cases h3 : c.toNat < 0x10000
      · refine ⟨0xE0 + c.toNat / 4096, [0x80 + c.toNat / 64 % 64, 0x80 + c.toNat % 64],
          by rw [utf8EncodeChar, if_neg h1, if_neg h2, if_pos h3], fun rest => ?_⟩
        have e1 : ¬ (0xE0 + c.toNat / 4096 < 0x80) := by omega
        have e2 : ¬ (0xE0 + c.toNat / 4096 < 0xC2) := by omega
        have e3 : ¬ (0xE0 + c.toNat / 4096 < 0xE0) := by omega
        have e4 : 0xE0 + c.toNat / 4096 < 0xF0 := by omega
        have eval : (0xE0 + c.toNat / 4096 - 0xE0) * 4096
            + (0x80 + c.toNat / 64 % 64 - 0x80) * 64 + (0x80 + c.toNat % 64 - 0x80)
            = c.toNat := by omega
        have e5 : ((0x80 ≤ 0x80 + c.toNat / 64 % 64 ∧ 0x80 + c.toNat / 64 % 64 < 0xC0)
              ∧ (0x80 ≤ 0x80 + c.toNat % 64 ∧ 0x80 + c.toNat % 64 < 0xC0))
            ∧ 0x800 ≤ (0xE0 + c.toNat / 4096 - 0xE0) * 4096
                + (0x80 + c.toNat / 64 % 64 - 0x80) * 64 + (0x80 + c.toNat % 64 - 0x80)
            ∧ ¬ (0xD800 ≤ (0xE0 + c.toNat / 4096 - 0xE0) * 4096
                  + (0x80 + c.toNat / 64 % 64 - 0x80) * 64 + (0x80 + c.toNat % 64 - 0x80)
                ∧ (0xE0 + c.toNat / 4096 - 0xE0) * 4096
                  + (0x80 + c.toNat / 64 % 64 - 0x80) * 64 + (0x80 + c.toNat % 64 - 0x80)
                  < 0xE000) := by
          refine ⟨by omega, by omega, ?_⟩
          rw [eval]
          omega
        rw [List.cons_append, List.cons_append, List.nil_append,
          utf8DecodeOneStrict.eq_def, if_neg e1, if_neg e2, if_neg e3, if_pos e4]
        simp only [if_pos e5]
        rw [eval, Char.ofNat_toNat]
      · refine ⟨0xF0 + c.toNat / 262144, [0x80 + c.toNat / 4096 % 64,
          0x80 + c.toNat / 64 % 64, 0x80 + c.toNat % 64],
          by rw [utf8EncodeChar, if_neg h1, if_neg h2, if_neg h3], fun rest => ?_⟩
        have e1 : ¬ (0xF0 + c.toNat / 262144 < 0x80) := by omega
        have e2 : ¬ (0xF0 + c.toNat / 262144 < 0xC2) := by omega
        have e3 : ¬ (0xF0 + c.toNat / 262144 < 0xE0) := by omega
        have e4 : ¬ (0xF0 + c.toNat / 262144 < 0xF0) := by omega
        have e5 : 0xF0 + c.toNat / 262144 < 0xF5 := by omega
        have eval : (0xF0 + c.toNat / 262144 - 0xF0) * 262144
            + (0x80 + c.toNat / 4096 % 64 - 0x80) * 4096
            + (0x80 + c.toNat / 64 % 64 - 0x80) * 64 + (0x80 + c.toNat % 64 - 0x80)
            = c.toNat := by omega
        have e6 : ((0x80 ≤ 0x80 + c.toNat / 4096 % 64 ∧ 0x80 + c.toNat / 4096 % 64 < 0xC0)
              ∧ (0x80 ≤ 0x80 + c.toNat / 64 % 64 ∧ 0x80 + c.toNat / 64 % 64 < 0xC0)
              ∧ (0x80 ≤ 0x80 + c.toNat % 64 ∧ 0x80 + c.toNat % 64 < 0xC0))
            ∧ 0x10000 ≤ (0xF0 + c.toNat / 262144 - 0xF0) * 262144
                + (0x80 + c.toNat / 4096 % 64 - 0x80) * 4096
                + (0x80 + c.toNat / 64 % 64 - 0x80) * 64 + (0x80 + c.toNat % 64 - 0x80)
            ∧ (0xF0 + c.toNat / 262144 - 0xF0) * 262144
                + (0x80 + c.toNat / 4096 % 64 - 0x80) * 4096
                + (0x80 + c.toNat / 64 % 64 - 0x80) * 64 + (0x80 + c.toNat % 64 - 0x80)
                < 0x110000 := by
          refine ⟨by omega, by rw [eval]; omega, by rw [eval]; omega⟩
        rw [List.cons_append, List.cons_append, List.cons_append, List.nil_append,
          utf8DecodeOneStrict.eq_def, if_neg e1, if_neg e2, if_neg e3, if_neg e4,
          if_pos e5]
        simp only [if_pos e6]
        rw [eval, Char.ofNat_toNat]

theorem bufToStringLoop_encode (cs : List Char) :
    ∀ fuel, (utf8Encode cs).length ≤ fuel →
      bufToStringLoop fuel (utf8Encode cs) = cs := by
  induction cs with
  | nil =>
    intro fuel _
    cases fuel <;> rfl
  | cons c cs ih =>
    intro fuel hf
    obtain ⟨b1, brest, henc, hdec⟩ := utf8EncodeChar_shape_strict c
    rw [show utf8Encode (c :: cs) = utf8EncodeChar c ++ utf8Encode cs from
      List.flatMap_cons .., henc, List.cons_append] at hf ⊢
    cases fuel with
    | zero => simp at hf
    | succ f =>
      rw [bufToStringLoop, hdec (utf8Encode cs)]
      simp only [List.length_cons, List.length_append] at hf
      show c :: bufToStringLoop f (utf8Encode cs) = c :: cs
      rw [ih f (by omega)]

theorem bufToString_utf8Encode (cs : List Char) : bufToString (utf8Encode cs) = cs :=
  bufToStringLoop_encode cs _ le_rfl

/-! ## SHA-256 (Node `crypto.createHash('sha256')`)

A concrete implementation of FIPS 180-4 SHA-256 over byte lists, with 32-bit
words represented as `Nat` reduced modulo `2 ^ 32`. -/

/-- `2 ^ 32`, the word modulus. -/
def M32 : Nat := 4294967296

def rotr (n x : Nat) : Nat := x / 2 ^ n + x % 2 ^ n * 2 ^ (32 - n)

def shr (n x : Nat) : Nat := x / 2 ^ n

def ch (e f g : Nat) : Nat := (e &&& f) ^^^ ((e ^^^ (M32 - 1)) &&& g)

def maj (a b c : Nat) : Nat := (a &&& b) ^^^ (a &&& c) ^^^ (b &&& c)

def bigSigma0 (x : Nat) : Nat := rotr 2 x ^^^ rotr 13 x ^^^ rotr 22 x

def bigSigma1 (x : Nat) : Nat := rotr 6 x ^^^ rotr 11 x ^^^ rotr 25 x

def smallSigma0 (x : Nat) : Nat := rotr 7 x ^^^ rotr 18 x ^^^ shr 3 x

def smallSigma1 (x : Nat) : Nat := rotr 17 x ^^^ rotr 19 x ^^^ shr 10 x

/-- The eight 32-bit working variables of the SHA-256 state. -/
structure Hash8 where
  a : Nat
  b : Nat
  c : Nat
  d : Nat
  e : Nat
  f : Nat
  g : Nat
  h : Nat

/-- SHA-256 initial hash value. -/
def sha256H0 : Hash8 :=
  ⟨1779033703, 3144134277, 1013904242, 2773480762,
   1359893119, 2600822924, 528734635, 1541459225⟩

/-- The 64 SHA-256 round constants. -/
def sha256K : List Nat :=
  [1116352408, 1899447441, 3049323471, 3921009573, 961987163, 1508970993,
   2453635748, 2870763221, 3624381080, 310598401, 607225278, 1426881987,
   1925078388, 2162078206, 2614888103, 3248222580, 3835390401, 4022224774,
   264347078, 604807628, 770255983, 1249150122, 1555081692, 1996064986,
   2554220882, 2821834349, 2952996808, 3210313671, 3336571891, 3584528711,
   113926993, 338241895, 666307205, 773529912, 1294757372, 1396182291,
   1695183700, 1986661051, 2177026350, 2456956037, 2730485921, 2820302411,
   3259730800, 3345764771, 3516065817, 3600352804, 4094571909, 275423344,
   430227734, 506948616, 659060556, 883997877, 958139571, 1322822218,
   1537002063, 1747873779, 1955562222, 2024104815, 2227730452, 2361852424,
   2428436474, 2756734187, 3204031479, 3329325298]

/-- Message padding: append `0x80`, zeros to 56 mod 64, then the 64-bit
big-endian bit length. -/
def sha256Pad (msg : List Nat) : List Nat :=
  let L := msg.length
  let bits := 8 * L
  msg ++ 0x80 :: List.replicate ((119 - L % 64) % 64) 0
    ++ [bits / 2 ^ 56 % 256, bits / 2 ^ 48 % 256, bits / 2 ^ 40 % 256,
        bits / 2 ^ 32 % 256, bits / 2 ^ 24 % 256, bits / 2 ^ 16 % 256,
        bits / 2 ^ 8 % 256, bits % 256]

/-- Split into 64-byte blocks (fuelled loop; the fuel bounds the number of
blocks and is supplied as the list length). -/
def chunk64Loop : Nat → List Nat → List (List Nat)
  | _, [] => []
  | 0, _ :: _ => []
  | fuel + 1, b :: l => (b :: l).take 64 :: chunk64Loop fuel ((b :: l).drop 64)

/-- Split into 64-byte blocks. -/
def chunk64 (l : List Nat) : List (List Nat) := chunk64Loop l.length l

/-- Big-endian grouping of bytes into 32-bit words. -/
def bytesToWords : List Nat → List Nat
  | b1 :: b2 :: b3 :: b4 :: rest =>
    (b1 * 2 ^ 24 + b2 * 2 ^ 16 + b3 * 2 ^ 8 + b4) :: bytesToWords rest
  | _ => []

/-- Extend the 16 message-schedule words to 64, one word per step. -/
def extendW : Nat → List Nat → List Nat
  | 0, w => w
  | k + 1, w =>
    extendW k (w ++ [(smallSigma1 (w.getD (w.length - 2) 0) + w.getD (w.length - 7) 0
      + smallSigma0 (w.getD (w.length - 15) 0) + w.getD (w.length - 16) 0) % M32])

/-- The 64-round compression loop over paired `(K, W)` words. -/
def compressWords : Hash8 → List (Nat × Nat) → Hash8
  | s, [] => s
  | ⟨a, b, c, d, e, f, g, h⟩, (k, w) :: rest =>
    let t1 := (h + bigSigma1 e + ch e f g + k + w) % M32
    let t2 := (bigSigma0 a + maj a b c) % M32
    compressWords ⟨(t1 + t2) % M32, a, b, c, (d + t1) % M32, e, f, g⟩ rest

def processBlock (s : Hash8) (block : List Nat) : Hash8 :=
  let w := extendW 48 (bytesToWords block)
  let t := compressWords s (sha256K.zip w)
  ⟨(s.a + t.a) % M32, (s.b + t.b) % M32, (s.c + t.c) % M32, (s.d + t.d) % M32,
   (s.e + t.e) % M32, (s.f + t.f) % M32, (s.g + t.g) % M32, (s.h + t.h) % M32⟩

/-- Big-endian bytes of one 32-bit word. -/
def wordBytes (w : Nat) : List Nat :=
  [w / 2 ^ 24 % 256, w / 2 ^ 16 % 256, w / 2 ^ 8 % 256, w % 256]

def digestBytes (s : Hash8) : List Nat :=
  wordBytes s.a ++ wordBytes s.b ++ wordBytes s.c ++ wordBytes s.d
    ++ wordBytes s.e ++ wordBytes s.f ++ wordBytes s.g ++ wordBytes s.h

/-- `crypto.createHash('sha256').update(bytes).digest()`: the 32-byte digest. -/
def sha256 (msg : List Nat) : List Nat :=
  digestBytes ((chunk64 (sha256Pad msg)).foldl processBlock sha256H0)

theorem digestBytes_length (s : Hash8) : (digestBytes s).length = 32 := by
  simp [digestBytes, wordBytes]

theorem digestBytes_lt (s : Hash8) : ∀ b ∈ digestBytes s, b < 256 := by
  intro b hb
  simp only [digestBytes, wordBytes, List.mem_append, List.mem_cons,
    List.mem_singleton, List.not_mem_nil, or_false] at hb
  omega

theorem sha256_length (msg : List Nat) : (sha256 msg).length = 32 :=
  digestBytes_length _

theorem sha256_bytes_lt (msg : List Nat) : ∀ b ∈ sha256 msg, b < 256 :=
  digestBytes_lt _

/-! ## HMAC-SHA256 (Node `crypto.createHmac('sha256', key)`) -/

def hmacSha256 (key msg : List Nat) : List Nat :=
  let key1 := if 64 < key.length then sha256 key else key
  let keyPad := key1 ++ List.replicate (64 - key1.length) 0
  sha256 (keyPad.map (· ^^^ 0x5c) ++ sha256 (keyPad.map (· ^^^ 0x36) ++ msg))

theorem hmacSha256_bytes_lt (key msg : List Nat) : ∀ b ∈ hmacSha256 key msg, b < 256 :=
  sha256_bytes_lt _

/-! ## Base64 (Node `Buffer.toString('base64')` / `Buffer.from(_, 'base64')`)

Standard-alphabet base64 with `=` padding.  The decoder is the strict partial
inverse of the encoder (Node's forgiving decoder produces garbage bytes on
non-canonical input, after which the caller's `JSON.parse` throws; both roads
end in the same caught-error path, so strictness is observationally adequate
here). -/

def b64Alphabet : List Char :=
  "ABCDEFGHIJKLMNOPQRSTUVWXYZabcdefghijklmnopqrstuvwxyz0123456789+/".data

def b64Char (n : Nat) : Char := b64Alphabet.getD n 'A'

def b64Encode : List Nat → List Char
  | b1 :: b2 :: b3 :: rest =>
    b64Char (b1 / 4) :: b64Char (b1 % 4 * 16 + b2 / 16)
      :: b64Char (b2 % 16 * 4 + b3 / 64) :: b64Char (b3 % 64) :: b64Encode rest
  | [b1, b2] => [b64Char (b1 / 4), b64Char (b1 % 4 * 16 + b2 / 16), b64Char (b2 % 16 * 4), '=']
  | [b1] => [b64Char (b1 / 4), b64Char (b1 % 4 * 16), '=', '=']
  | [] => []

/-- Node's `unbase64` table: the 6-bit value of a base64 character, accepting
both the standard and the URL-safe alphabet (`-` ≡ `+`, `_` ≡ `/`); `none`
for every other character. -/
def unb64 (c : Char) : Option Nat :=
  if 'A' ≤ c ∧ c ≤ 'Z' then some (c.toNat - 'A'.toNat)
  else if 'a' ≤ c ∧ c ≤ 'z' then some (c.toNat - 'a'.toNat + 26)
  else if '0' ≤ c ∧ c ≤ '9' then some (c.toNat - '0'.toNat + 52)
  else if c = '+' ∨ c = '-' then some 62
  else if c = '/' ∨ c = '_' then some 63
  else none

/-- The sextet stream Node's decoder consumes: characters with no table entry
are skipped, and the first `=` stops the decode entirely. -/
def b64Sextets : List Char → List Nat
  | [] => []
  | c :: r =>
    if c = '=' then []
    else
      match unb64 c with
      | some v => v :: b64Sextets r
      | none => b64Sextets r

/-- Node's `base64_decoded_size`: up to two trailing `=` are stripped from
the raw length, and the estimate is 3 bytes per full 4-character group plus
1 for a remainder of 1 (unless that is the whole input) or 2, and 2 for a
remainder of 3. -/
def nodeB64Size (l : List Char) : Nat :=
  let n0 := l.length
  let n1 := if 0 < n0 ∧ l.getD (n0 - 1) ' ' = '=' then n0 - 1 else n0
  let n2 := if 0 < n1 ∧ l.getD (n1 - 1) ' ' = '=' then n1 - 1 else n1
  3 * (n2 / 4)
    + (if n2 % 4 = 0 then 0
       else if n2 / 4 = 0 ∧ n2 % 4 = 1 then 0
       else if n2 % 4 = 3 then 2 else 1)

/-- The full-group loop of `base64_decode_slow`: up to `g` groups of four
sextets become three bytes each; a group interrupted by the `=`/end-of-input
cut contributes nothing and aborts the decode (flag `true`), skipping the
remainder step. -/
def b64Groups : Nat → List Nat → List Nat × List Nat × Bool
  | 0, vs => ([], vs, false)
  | g + 1, v1 :: v2 :: v3 :: v4 :: rest =>
    ((v1 * 4 + v2 / 16) :: (v2 % 16 * 16 + v3 / 4) :: (v3 % 4 * 64 + v4)
        :: (b64Groups g rest).1,
      (b64Groups g rest).2.1, (b64Groups g rest).2.2)
  | _ + 1, vs => ([], vs, true)

/-- The remainder step of `base64_decode_slow`: at most two further bytes,
each requiring one sextet beyond the first. -/
def b64Rem : Nat → List Nat → List Nat
  | 0, _ => []
  | 1, v1 :: v2 :: _ => [v1 * 4 + v2 / 16]
  | _ + 2, v1 :: v2 :: v3 :: _ => [v1 * 4 + v2 / 16, v2 % 16 * 16 + v3 / 4]
  | _ + 2, [v1, v2] => [v1 * 4 + v2 / 16]
  | _, _ => []

/-- `Buffer.from(s, 'base64')` as Node performs it: estimate the decoded
size, then run the group loop and (unless it aborted) the remainder step
over the legal sextets cut at the first `=`.  A total function: no input is
rejected. -/
def b64Decode (l : List Char) : List Nat :=
  if (b64Groups (nodeB64Size l / 3) (b64Sextets l)).2.2 then
    (b64Groups (nodeB64Size l / 3) (b64Sextets l)).1
  else
    (b64Groups (nodeB64Size l / 3) (b64Sextets l)).1
      ++ b64Rem (nodeB64Size l % 3) (b64Groups (nodeB64Size l / 3) (b64Sextets l)).2.1

theorem b64Char_ne_pad : ∀ v < 64, b64Char v ≠ '=' := by decide

theorem unb64_b64Char : ∀ v < 64, unb64 (b64Char v) = some v := by decide

theorem b64Char_ne_pad_any (n : Nat) : b64Char n ≠ '=' := by
  by_cases h : n < 64
  · exact b64Char_ne_pad n h
  · rw [b64Char, List.getD_eq_default _ _
      (by rw [show b64Alphabet.length = 64 from rfl]; omega)]
    decide

theorem b64Char_ne_dot : ∀ v < 64, b64Char v ≠ '.' := by decide

theorem b64Char_ne_dot_any (n : Nat) : b64Char n ≠ '.' := by
  by_cases h : n < 64
  · exact b64Char_ne_dot n h
  · rw [b64Char, List.getD_eq_default _ _
      (by rw [show b64Alphabet.length = 64 from rfl]; omega)]
    decide

theorem mem_b64Encode_ne_dot {bs : List Nat} {c : Char} (h : c ∈ b64Encode bs) :
    c ≠ '.' := by
  induction bs using b64Encode.induct with
  | case1 b1 b2 b3 rest ih =>
    rw [b64Encode] at h
    simp only [List.mem_cons] at h
    rcases h with h | h | h | h | h
    · rw [h]; exact b64Char_ne_dot_any _
    · rw [h]; exact b64Char_ne_dot_any _
    · rw [h]; exact b64Char_ne_dot_any _
    · rw [h]; exact b64Char_ne_dot_any _
    · exact ih h
  | case2 b1 b2 =>
    rw [b64Encode] at h
    simp only [List.mem_cons, List.mem_singleton, List.not_mem_nil, or_false] at h
    rcases h with h | h | h | h
    · rw [h]; exact b64Char_ne_dot_any _
    · rw [h]; exact b64Char_ne_dot_any _
    · rw [h]; exact b64Char_ne_dot_any _
    · rw [h]; decide
  | case3 b1 =>
    rw [b64Encode] at h
    simp only [List.mem_cons, List.mem_singleton, List.not_mem_nil, or_false] at h
    rcases h with h | h | h | h
    · rw [h]; exact b64Char_ne_dot_any _
    · rw [h]; exact b64Char_ne_dot_any _
    · rw [h]; decide
    · rw [h]; decide
  | case4 =>
    rw [b64Encode] at h
    simp at h

/-- The sextets of the canonical (padded) encoding. -/
def encSex : List Nat → List Nat
  | b1 :: b2 :: b3 :: rest =>
    b1 / 4 :: (b1 % 4 * 16 + b2 / 16) :: (b2 % 16 * 4 + b3 / 64) :: b3 % 64 :: encSex rest
  | [b1, b2] => [b1 / 4, b1 % 4 * 16 + b2 / 16, b2 % 16 * 4]
  | [b1] => [b1 / 4, b1 % 4 * 16]
  | [] => []

theorem b64Sextets_encode :
    ∀ n (bs : List Nat), bs.length ≤ n → (∀ b ∈ bs, b < 256) →
      b64Sextets (b64Encode bs) = encSex bs := by
  intro n
  induction n with
  | zero =>
    intro bs hlen _
    rw [List.length_eq_zero.mp (by omega : bs.length = 0)]
    rfl
  | succ n ih =>
    intro bs hlen hlt
    match bs with
    | [] => rfl
    | [b1] =>
      have hb1 : b1 < 256 := hlt b1 (by simp)
      have h1 : b1 / 4 < 64 := by omega
      have h2 : b1 % 4 * 16 < 64 := by omega
      rw [b64Encode, b64Sextets, if_neg (b64Char_ne_pad_any _), unb64_b64Char _ h1]
      rw [show b64Sextets [b64Char (b1 % 4 * 16), '=', '=']
          = b1 % 4 * 16 :: b64Sextets ['=', '='] from by
        rw [b64Sextets, if_neg (b64Char_ne_pad_any _), unb64_b64Char _ h2]]
      rw [show b64Sextets ['=', '='] = [] from by rw [b64Sextets, if_pos rfl]]
      rfl
    | [b1, b2] =>
      have hb1 : b1 < 256 := hlt b1 (by simp)
      have hb2 : b2 < 256 := hlt b2 (by simp)
      have h1 : b1 / 4 < 64 := by omega
      have h2 : b1 % 4 * 16 + b2 / 16 < 64 := by omega
      have h3 : b2 % 16 * 4 < 64 := by omega
      rw [b64Encode, b64Sextets, if_neg (b64Char_ne_pad_any _), unb64_b64Char _ h1]
      rw [show b64Sextets [b64Char (b1 % 4 * 16 + b2 / 16), b64Char (b2 % 16 * 4), '=']
          = (b1 % 4 * 16 + b2 / 16) :: b2 % 16 * 4 :: b64Sextets ['='] from by
        rw [b64Sextets, if_neg (b64Char_ne_pad_any _), unb64_b64Char _ h2,
          b64Sextets, if_neg (b64Char_ne_pad_any _), unb64_b64Char _ h3]]
      rw [show b64Sextets ['='] = [] from by rw [b64Sextets, if_pos rfl]]
      rfl
    | b1 :: b2 :: b3 :: rest =>
      have hb1 : b1 < 256 := hlt b1 (by simp)
      have hb2 : b2 < 256 := hlt b2 (by simp)
      have hb3 : b3 < 256 := hlt b3 (by simp)
      have h1 : b1 / 4 < 64 := by omega
      have h2 : b1 % 4 * 16 + b2 / 16 < 64 := by omega
      have h3 : b2 % 16 * 4 + b3 / 64 < 64 := by omega
      have h4 : b3 % 64 < 64 := by omega
      simp only [List.length_cons] at hlen
      rw [b64Encode, b64Sextets, if_neg (b64Char_ne_pad_any _), unb64_b64Char _ h1]
      rw [show ∀ tail, b64Sextets (b64Char (b1 % 4 * 16 + b2 / 16) :: tail)
          = (b1 % 4 * 16 + b2 / 16) :: b64Sextets tail from fun tail => by
        rw [b64Sextets, if_neg (b64Char_ne_pad_any _), unb64_b64Char _ h2]]
      rw [show ∀ tail, b64Sextets (b64Char (b2 % 16 * 4 + b3 / 64) :: tail)
          = (b2 % 16 * 4 + b3 / 64) :: b64Sextets tail from fun tail => by
        rw [b64Sextets, if_neg (b64Char_ne_pad_any _), unb64_b64Char _ h3]]
      rw [show ∀ tail, b64Sextets (b64Char (b3 % 64) :: tail)
          = b3 % 64 :: b64Sextets tail from fun tail => by
        rw [b64Sextets, if_neg (b64Char_ne_pad_any _), unb64_b64Char _ h4]]
      rw [ih rest (by omega) (fun b hb => hlt b (by simp [hb]))]
      rfl

theorem b64Encode_pad_shape :
    ∀ n (bs : List Nat), bs.length ≤ n → (∀ b ∈ bs, b < 256) →
      (bs.length % 3 = 0 ∧ '=' ∉ b64Encode bs
        ∧ (b64Encode bs).length = bs.length / 3 * 4)
      ∨ (bs.length % 3 = 1 ∧ ∃ pre v1 v2, v1 < 64 ∧ v2 < 64
          ∧ b64Encode bs = pre ++ [b64Char v1, b64Char v2, '=', '=']
          ∧ pre.length = bs.length / 3 * 4)
      ∨ (bs.length % 3 = 2 ∧ ∃ pre v1 v2 v3, v1 < 64 ∧ v2 < 64 ∧ v3 < 64
          ∧ b64Encode bs = pre ++ [b64Char v1, b64Char v2, b64Char v3, '=']
          ∧ pre.length = bs.length / 3 * 4) := by
  intro n
  induction n with
  | zero =>
    intro bs hlen _
    rw [List.length_eq_zero.mp (by omega : bs.length = 0)]
    exact Or.inl ⟨rfl, by rw [b64Encode]; simp, rfl⟩
  | succ n ih =>
    intro bs hlen hlt
    match bs with
    | [] => exact Or.inl ⟨rfl, by rw [b64Encode]; simp, rfl⟩
    | [b1] =>
      have hb1 : b1 < 256 := hlt b1 (by simp)
      refine Or.inr (Or.inl ⟨rfl, [], b1 / 4, b1 % 4 * 16, by omega, by omega, ?_, by norm_num⟩)
      rw [b64Encode, List.nil_append]
    | [b1, b2] =>
      have hb1 : b1 < 256 := hlt b1 (by simp)
      have hb2 : b2 < 256 := hlt b2 (by simp)
      refine Or.inr (Or.inr ⟨rfl, [], b1 / 4, b1 % 4 * 16 + b2 / 16, b2 % 16 * 4,
        by omega, by omega, by omega, ?_, by norm_num⟩)
      rw [b64Encode, List.nil_append]
    | b1 :: b2 :: b3 :: rest =>
      simp only [List.length_cons] at hlen
      have hlen3 : (b1 :: b2 :: b3 :: rest).length = rest.length + 3 := by
        simp [List.length_cons]
      rcases ih rest (by omega) (fun b hb => hlt b (by simp [hb])) with
        ⟨hmod, hmem, hle⟩ | ⟨hmod, pre, v1, v2, hv1, hv2, henc, hple⟩
        | ⟨hmod, pre, v1, v2, v3, hv1, hv2, hv3, henc, hple⟩
      · refine Or.inl ⟨by omega, ?_, ?_⟩
        · rw [b64Encode]
          intro hm
          simp only [List.mem_cons] at hm
          rcases hm with hm | hm | hm | hm | hm
          · exact b64Char_ne_pad_any _ hm.symm
          · exact b64Char_ne_pad_any _ hm.symm
          · exact b64Char_ne_pad_any _ hm.symm
          · exact b64Char_ne_pad_any _ hm.symm
          · exact hmem hm
        · rw [b64Encode]
          simp only [List.length_cons, hle, hlen3]
          omega
      · refine Or.inr (Or.inl ⟨by omega, b64Char (b1 / 4) :: b64Char (b1 % 4 * 16 + b2 / 16)
          :: b64Char (b2 % 16 * 4 + b3 / 64) :: b64Char (b3 % 64) :: pre, v1, v2,
          hv1, hv2, ?_, ?_⟩)
        · rw [b64Encode, henc]
          rfl
        · simp only [List.length_cons, hple, hlen3]
          omega
      · refine Or.inr (Or.inr ⟨by omega, b64Char (b1 / 4) :: b64Char (b1 % 4 * 16 + b2 / 16)
          :: b64Char (b2 % 16 * 4 + b3 / 64) :: b64Char (b3 % 64) :: pre, v1, v2, v3,
          hv1, hv2, hv3, ?_, ?_⟩)
        · rw [b64Encode, henc]
          rfl
        · simp only [List.length_cons, hple, hlen3]
          omega

theorem nodeB64Size_encode {bs : List Nat} (h : ∀ b ∈ bs, b < 256) :
    nodeB64Size (b64Encode bs) = bs.length := by
  rcases b64Encode_pad_shape bs.length bs le_rfl h with
    ⟨hmod, hmem, hle⟩ | ⟨hmod, pre, v1, v2, _, _, henc, hple⟩
    | ⟨hmod, pre, v1, v2, v3, _, _, _, henc, hple⟩
  · by_cases h0 : bs.length = 0
    · have hbs : bs = [] := List.length_eq_zero.mp h0
      subst hbs
      rfl
    · have hget : (b64Encode bs).getD (bs.length / 3 * 4 - 1) ' ' ≠ '=' := by
        intro hc
        apply hmem
        rw [← hc, List.getD_eq_getElem _ _ (by rw [hle]; omega)]
        exact List.getElem_mem _
      have hcond : ¬ (0 < bs.length / 3 * 4
          ∧ (b64Encode bs).getD (bs.length / 3 * 4 - 1) ' ' = '=') :=
        fun hc => hget hc.2
      simp only [nodeB64Size, hle]
      rw [if_neg hcond, if_neg hcond,
        if_pos (by omega : bs.length / 3 * 4 % 4 = 0)]
      omega
  · have hlen : (b64Encode bs).length = pre.length + 4 := by
      rw [henc, List.length_append]
      rfl
    have hget1 : (b64Encode bs).getD (pre.length + 4 - 1) ' ' = '=' := by
      rw [henc, show pre.length + 4 - 1 = pre.length + 3 from by omega,
        List.getD_append_right _ _ _ _ (by omega)]
      simp
    have hget2 : (b64Encode bs).getD (pre.length + 4 - 1 - 1) ' ' = '=' := by
      rw [henc, show pre.length + 4 - 1 - 1 = pre.length + 2 from by omega,
        List.getD_append_right _ _ _ _ (by omega)]
      simp
    simp only [nodeB64Size, hlen]
    rw [if_pos (show 0 < pre.length + 4
        ∧ (b64Encode bs).getD (pre.length + 4 - 1) ' ' = '=' from ⟨by omega, hget1⟩)]
    rw [if_pos (show 0 < pre.length + 4 - 1
        ∧ (b64Encode bs).getD (pre.length + 4 - 1 - 1) ' ' = '=' from ⟨by omega, hget2⟩)]
    rw [if_neg (by omega : ¬ ((pre.length + 4 - 1 - 1) % 4 = 0)),
      if_neg (by
        rw [hple]
        omega : ¬ ((pre.length + 4 - 1 - 1) / 4 = 0 ∧ (pre.length + 4 - 1 - 1) % 4 = 1)),
      if_neg (by omega : ¬ ((pre.length + 4 - 1 - 1) % 4 = 3))]
    omega
  · have hlen : (b64Encode bs).length = pre.length + 4 := by
      rw [henc, List.length_append]
      rfl
    have hget1 : (b64Encode bs).getD (pre.length + 4 - 1) ' ' = '=' := by
      rw [henc, show pre.length + 4 - 1 = pre.length + 3 from by omega,
        List.getD_append_right _ _ _ _ (by omega)]
      simp
    have hget2 : (b64Encode bs).getD (pre.length + 4 - 1 - 1) ' ' ≠ '=' := by
      rw [henc, show pre.length + 4 - 1 - 1 = pre.length + 2 from by omega,
        List.getD_append_right _ _ _ _ (by omega)]
      simp only [show pre.length + 2 - pre.length = 2 from by omega]
      exact fun hc => b64Char_ne_pad_any v3 hc
    simp only [nodeB64Size, hlen]
    rw [if_pos (show 0 < pre.length + 4
        ∧ (b64Encode bs).getD (pre.length + 4 - 1) ' ' = '=' from ⟨by omega, hget1⟩)]
    rw [if_neg (show ¬ (0 < pre.length + 4 - 1
        ∧ (b64Encode bs).getD (pre.length + 4 - 1 - 1) ' ' = '=') from
          fun hc => hget2 hc.2)]
    rw [if_neg (by omega : ¬ ((pre.length + 4 - 1) % 4 = 0)),
      if_neg (by omega : ¬ ((pre.length + 4 - 1) / 4 = 0 ∧ (pre.length + 4 - 1) % 4 = 1)),
      if_pos (by omega : (pre.length + 4 - 1) % 4 = 3)]
    omega

theorem b64Groups_encSex :
    ∀ m (full rem : List Nat), full.length = 3 * m → (∀ b ∈ full, b < 256) →
      b64Groups m (encSex (full ++ rem)) = (full, encSex rem, false) := by
  intro m
  induction m with
  | zero =>
    intro full rem hlen _
    rw [List.length_eq_zero.mp (by omega : full.length = 0), List.nil_append, b64Groups]
  | succ g ih =>
    intro full rem hlen hlt
    match full with
    | [] => simp at hlen
    | [b1] => simp only [List.length_cons, List.length_nil] at hlen; omega
    | [b1, b2] => simp only [List.length_cons, List.length_nil] at hlen; omega
    | b1 :: b2 :: b3 :: frest =>
      have hb1 : b1 < 256 := hlt b1 (by simp)
      have hb2 : b2 < 256 := hlt b2 (by simp)
      have hb3 : b3 < 256 := hlt b3 (by simp)
      simp only [List.length_cons] at hlen
      rw [List.cons_append, List.cons_append, List.cons_append, encSex, b64Groups,
        ih frest rem (by omega) (fun b hb => hlt b (by simp [hb]))]
      have e1 : b1 / 4 * 4 + (b1 % 4 * 16 + b2 / 16) / 16 = b1 := by omega
      have e2 : (b1 % 4 * 16 + b2 / 16) % 16 * 16 + (b2 % 16 * 4 + b3 / 64) / 4 = b2 := by
        omega
      have e3 : (b2 % 16 * 4 + b3 / 64) % 4 * 64 + b3 % 64 = b3 := by omega
      rw [e1, e2, e3]

theorem b64Decode_b64Encode {bs : List Nat} (h : ∀ b ∈ bs, b < 256) :
    b64Decode (b64Encode bs) = bs := by
  have hs := b64Sextets_encode bs.length bs le_rfl h
  have he := nodeB64Size_encode h
  obtain ⟨full, rem, hfl, hrl, hbs⟩ : ∃ full rem,
      full.length = 3 * (bs.length / 3) ∧ rem.length = bs.length % 3
      ∧ bs = full ++ rem := by
    refine ⟨bs.take (3 * (bs.length / 3)), bs.drop (3 * (bs.length / 3)), ?_, ?_, ?_⟩
    · rw [List.length_take]
      omega
    · rw [List.length_drop]
      omega
    · rw [List.take_append_drop]
  have hN : bs.length = full.length + rem.length := by rw [hbs, List.length_append]
  have hgr := b64Groups_encSex (bs.length / 3) full rem (by omega)
    (fun b hb => h b (by rw [hbs]; exact List.mem_append_left _ hb))
  rw [b64Decode, he, hs]
  rw [show encSex bs = encSex (full ++ rem) from by rw [hbs]]
  rw [hgr]
  rw [if_neg (by simp)]
  show full ++ b64Rem (bs.length % 3) (encSex rem) = bs
  have hrem : b64Rem (bs.length % 3) (encSex rem) = rem := by
    rw [← hrl]
    match rem with
    | [] => rfl
    | [b1] =>
      have hb1 : b1 < 256 := h b1 (by rw [hbs]; exact List.mem_append_right _ (by simp))
      show b64Rem 1 (encSex [b1]) = [b1]
      rw [show encSex [b1] = [b1 / 4, b1 % 4 * 16] from rfl, b64Rem]
      rw [show b1 / 4 * 4 + b1 % 4 * 16 / 16 = b1 from by omega]
    | [b1, b2] =>
      have hb1 : b1 < 256 := h b1 (by rw [hbs]; exact List.mem_append_right _ (by simp))
      have hb2 : b2 < 256 := h b2 (by rw [hbs]; exact List.mem_append_right _ (by simp))
      show b64Rem 2 (encSex [b1, b2]) = [b1, b2]
      rw [show encSex [b1, b2] = [b1 / 4, b1 % 4 * 16 + b2 / 16, b2 % 16 * 4] from rfl,
        b64Rem]
      rw [show b1 / 4 * 4 + (b1 % 4 * 16 + b2 / 16) / 16 = b1 from by omega,
        show (b1 % 4 * 16 + b2 / 16) % 16 * 16 + b2 % 16 * 4 / 4 = b2 from by omega]
    | r1 :: r2 :: r3 :: rr =>
      exfalso
      have : (r1 :: r2 :: r3 :: rr).length = bs.length % 3 := hrl
      simp only [List.length_cons] at this
      omega
  rw [hrem]
  exact hbs.symm

/-! ## Decimal rendering and scanning of JS numbers

`JSON.stringify` prints the integral JS numbers appearing in token payloads as
plain (possibly negative) decimal literals; `JSON.parse` reads them back. -/

def digitChar (n : Nat) : Char := Char.ofNat ('0'.toNat + n)

def isDigitChar (c : Char) : Bool := decide ('0' ≤ c ∧ c ≤ '9')

/-- Fuelled most-significant-first decimal rendering. -/
def natDigitsLoop : Nat → Nat → List Char
  | 0, _ => []
  | fuel + 1, n =>
    if n < 10 then [digitChar n]
    else natDigitsLoop fuel (n / 10) ++ [digitChar (n % 10)]

def natRepr (n : Nat) : List Char := natDigitsLoop (n + 1) n

def intRepr (i : Int) : List Char :=
  if i < 0 then '-' :: natRepr (-i).toNat else natRepr i.toNat

def digitsToNat (ds : List Char) : Nat :=
  ds.foldl (fun a c => 10 * a + (c.toNat - '0'.toNat)) 0

def scanNat (l : List Char) : Option (Nat × List Char) :=
  if l.takeWhile isDigitChar = [] then none
  else some (digitsToNat (l.takeWhile isDigitChar), l.dropWhile isDigitChar)

def scanInt (l : List Char) : Option (Int × List Char) :=
  match l with
  | c :: r =>
    if c = '-' then (scanNat r).map (fun p => (-(p.1 : Int), p.2))
    else (scanNat (c :: r)).map (fun p => ((p.1 : Int), p.2))
  | [] => none

theorem isDigitChar_digitChar : ∀ n < 10, isDigitChar (digitChar n) = true := by decide

theorem digitChar_val : ∀ n < 10, (digitChar n).toNat - '0'.toNat = n := by decide

theorem natDigitsLoop_ne_nil {f n : Nat} : natDigitsLoop (f + 1) n ≠ [] := by
  rw [natDigitsLoop]
  split
  · simp
  · simp

theorem natDigitsLoop_digits {fuel : Nat} :
    ∀ {n}, n < 10 ^ fuel → ∀ c ∈ natDigitsLoop fuel n, isDigitChar c = true := by
  induction fuel with
  | zero =>
    intro n _ c hc
    exact absurd hc (by simp [natDigitsLoop])
  | succ f ih =>
    intro n h c hc
    rw [natDigitsLoop] at hc
    split at hc
    · simp only [List.mem_singleton] at hc
      exact hc ▸ isDigitChar_digitChar n (by omega)
    · rw [List.mem_append, List.mem_singleton] at hc
      rcases hc with hc | hc
      · exact ih (by rw [pow_succ] at h; omega) c hc
      · exact hc ▸ isDigitChar_digitChar (n % 10) (Nat.mod_lt _ (by omega))

theorem digitsToNat_append_digit (ds : List Char) (d : Char) :
    digitsToNat (ds ++ [d]) = 10 * digitsToNat ds + (d.toNat - '0'.toNat) := by
  rw [digitsToNat, List.foldl_append]
  rfl

theorem digitsToNat_natDigitsLoop {fuel : Nat} :
    ∀ {n}, n < 10 ^ fuel → digitsToNat (natDigitsLoop fuel n) = n := by
  induction fuel with
  | zero =>
    intro n h
    rw [pow_zero] at h
    have hn : n = 0 := by omega
    subst hn
    rfl
  | succ f ih =>
    intro n h
    rw [natDigitsLoop]
    split
    · have hv := digitChar_val n (by omega)
      show 10 * 0 + ((digitChar n).toNat - '0'.toNat) = n
      omega
    · rw [digitsToNat_append_digit, ih (by rw [pow_succ] at h; omega),
        digitChar_val (n % 10) (Nat.mod_lt _ (by omega))]
      omega

theorem lt_ten_pow (n : Nat) : n < 10 ^ (n + 1) :=
  Nat.lt_of_lt_of_le (Nat.lt_two_pow n)
    (Nat.le_trans (Nat.pow_le_pow_left (by omega) n)
      (Nat.pow_le_pow_right (by omega) (by omega)))

theorem natRepr_ne_nil (n : Nat) : natRepr n ≠ [] :=
  natDigitsLoop_ne_nil

theorem natRepr_digits (n : Nat) : ∀ c ∈ natRepr n, isDigitChar c = true :=
  natDigitsLoop_digits (lt_ten_pow n)

theorem digitsToNat_natRepr (n : Nat) : digitsToNat (natRepr n) = n :=
  digitsToNat_natDigitsLoop (lt_ten_pow n)

theorem takeWhile_all_append {p : Char → Bool} {ds : List Char} {c : Char} {r : List Char}
    (hds : ∀ x ∈ ds, p x = true) (hc : ¬ p c = true) :
    (ds ++ c :: r).takeWhile p = ds ∧ (ds ++ c :: r).dropWhile p = c :: r := by
  induction ds with
  | nil =>
    have hc' : p c = false := by rwa [Bool.not_eq_true] at hc
    constructor
    · rw [List.nil_append, List.takeWhile_cons, hc']
      simp
    · rw [List.nil_append, List.dropWhile_cons, hc']
      simp
  | cons d ds ih =>
    have hd : p d = true := hds d (by simp)
    obtain ⟨ih1, ih2⟩ := ih (fun x hx => hds x (by simp [hx]))
    constructor
    · rw [List.cons_append, List.takeWhile_cons, hd]
      simp [ih1]
    · rw [List.cons_append, List.dropWhile_cons, hd]
      simp [ih2]

theorem scanNat_natRepr (n : Nat) {c : Char} (hc : ¬ isDigitChar c = true)
    (r : List Char) : scanNat (natRepr n ++ c :: r) = some (n, c :: r) := by
  obtain ⟨h1, h2⟩ := takeWhile_all_append (natRepr_digits n) hc
  rw [scanNat, h1, h2, if_neg (natRepr_ne_nil n), digitsToNat_natRepr]

theorem digit_ne_dash {c : Char} (h : isDigitChar c = true) : ¬ c = '-' := by
  intro hc
  rw [hc] at h
  exact absurd h (by decide)

theorem scanInt_intRepr (i : Int) {c : Char} (hc : ¬ isDigitChar c = true)
    (r : List Char) : scanInt (intRepr i ++ c :: r) = some (i, c :: r) := by
  by_cases hneg : i < 0
  · rw [intRepr, if_pos hneg, List.cons_append, scanInt, if_pos rfl,
      scanNat_natRepr _ hc, Option.map_some']
    have hval : -(((-i).toNat : Nat) : Int) = i := by omega
    simp only [hval]
  · rw [intRepr, if_neg hneg]
    obtain ⟨d, ds, hd⟩ : ∃ d ds, natRepr i.toNat = d :: ds := by
      match h : natRepr i.toNat with
      | [] => exact absurd h (natRepr_ne_nil _)
      | d :: ds => exact ⟨d, ds, rfl⟩
    have hddig : isDigitChar d = true := natRepr_digits i.toNat d (by rw [hd]; simp)
    rw [hd, List.cons_append, scanInt, if_neg (digit_ne_dash hddig)]
    have : scanNat (d :: (ds ++ c :: r)) = some (i.toNat, c :: r) := by
      rw [show d :: (ds ++ c :: r) = (d :: ds) ++ c :: r from rfl, ← hd,
        scanNat_natRepr _ hc]
    rw [this, Option.map_some']
    have hval : ((i.toNat : Nat) : Int) = i := by omega
    simp only [hval]

/-! ## JSON string escaping (`JSON.stringify`) and its scanner (`JSON.parse`)

`JSON.stringify` escapes `"` and `\`, uses the short escapes for the five
control characters that have them, `\u00XX` for the remaining control
characters, and leaves everything else untouched. -/

def escChar (c : Char) : List Char :=
  if c = '"' then ['\\', '"']
  else if c = '\\' then ['\\', '\\']
  else if c.toNat = 8 then ['\\', 'b']
  else if c.toNat = 9 then ['\\', 't']
  else if c.toNat = 10 then ['\\', 'n']
  else if c.toNat = 12 then ['\\', 'f']
  else if c.toNat = 13 then ['\\', 'r']
  else if c.toNat < 32 then ['\\', 'u', '0', '0', hexDigit (c.toNat / 16), hexDigit (c.toNat % 16)]
  else [c]

def escString (cs : List Char) : List Char := cs.flatMap escChar

/-- Decode a single-character JSON escape (the character after `\`); JSON
allows exactly `"` `\` `/` `b` `f` `n` `r` `t` here. -/
def escDecode1 (e : Char) : Option Char :=
  if e = '"' then some '"'
  else if e = '\\' then some '\\'
  else if e = '/' then some '/'
  else if e = 'b' then some (Char.ofNat 8)
  else if e = 't' then some (Char.ofNat 9)
  else if e = 'n' then some (Char.ofNat 10)
  else if e = 'f' then some (Char.ofNat 12)
  else if e = 'r' then some (Char.ofNat 13)
  else none

/-- Scan four hex digits of a `\u` escape into their 16-bit value. -/
def scanHex4 (l : List Char) : Option (Nat × List Char) :=
  match l with
  | h1 :: h2 :: h3 :: h4 :: rest =>
    if isHexDigit h1 && isHexDigit h2 && isHexDigit h3 && isHexDigit h4 then
      some (4096 * hexVal h1 + 256 * hexVal h2 + 16 * hexVal h3 + hexVal h4, rest)
    else none
  | _ => none

/-- Scan a `\uXXXX` escape with JavaScript's UTF-16 pairing: a high surrogate
immediately followed by a `\uYYYY` low surrogate yields the combined code
point.  An unpaired surrogate is a lone UTF-16 code unit in the JavaScript
string; the `List Char` model (Unicode scalars only) represents it as
`U+FFFD`. -/
def scanUnicodeEscape (l : List Char) : Option (Char × List Char) :=
  match scanHex4 l with
  | none => none
  | some (n, rest) =>
    if n < 0xD800 ∨ 0xE000 ≤ n then some (Char.ofNat n, rest)
    else if n < 0xDC00 then
      match rest with
      | '\\' :: 'u' :: rest2 =>
        match scanHex4 rest2 with
        | some (m, rest3) =>
          if 0xDC00 ≤ m ∧ m < 0xE000 then
            some (Char.ofNat (0x10000 + (n - 0xD800) * 1024 + (m - 0xDC00)), rest3)
          else some (Char.ofNat 0xFFFD, rest)
        | none => some (Char.ofNat 0xFFFD, rest)
      | _ => some (Char.ofNat 0xFFFD, rest)
    else some (Char.ofNat 0xFFFD, rest)

/-- Scan the portion of a JSON escape after the backslash. -/
def scanEscape (l : List Char) : Option (Char × List Char) :=
  match l with
  | e :: rest2 =>
    if e = 'u' then scanUnicodeEscape rest2
    else (escDecode1 e).map (fun c2 => (c2, rest2))
  | [] => none

/-- Scan one source character of a JSON string body: `some (none, r)` means the
closing quote was reached, `some (some ch, r)` means one character `ch` was
read with `r` left over.  An unescaped control character (below `U+0020`) is
rejected, as `JSON.parse` requires. -/
def scanStringStep (c : Char) (rest : List Char) : Option (Option Char × List Char) :=
  if c = '"' then some (none, rest)
  else if c = '\\' then (scanEscape rest).map (fun p => (some p.1, p.2))
  else if c.toNat < 32 then none
  else some (some c, rest)

def scanStringLoop : Nat → List Char → Option (List Char × List Char)
  | 0, _ => none
  | _ + 1, [] => none
  | fuel + 1, c :: rest =>
    match scanStringStep c rest with
    | some (none, r) => some ([], r)
    | some (some ch, r) => (scanStringLoop fuel r).map (fun p => (ch :: p.1, p.2))
    | none => none

theorem scanStringStep_esc1 {e c2 : Char} (he : ¬ e = 'u') (hd : escDecode1 e = some c2)
    (rest : List Char) : scanStringStep '\\' (e :: rest) = some (some c2, rest) := by
  rw [scanStringStep, if_neg (by decide : ¬ ('\\' : Char) = '"'), if_pos rfl,
    scanEscape, if_neg he, hd]
  rfl

theorem escChar_shape (c : Char) : ∃ e1 erest, escChar c = e1 :: erest
    ∧ ∀ rest, scanStringStep e1 (erest ++ rest) = some (some c, rest) := by
  by_cases h1 : c = '"'
  · subst h1
    refine ⟨'\\', ['"'], rfl, fun rest => ?_⟩
    simp only [List.cons_append, List.nil_append]
    exact scanStringStep_esc1 (by decide) (by rfl) rest
  · by_cases h2 : c = '\\'
    · subst h2
      refine ⟨'\\', ['\\'], by rw [escChar, if_neg h1, if_pos rfl], fun rest => ?_⟩
      simp only [List.cons_append, List.nil_append]
      exact scanStringStep_esc1 (by decide) (by rfl) rest
    · by_cases h3 : c.toNat = 8
      · refine ⟨'\\', ['b'], by rw [escChar, if_neg h1, if_neg h2, if_pos h3],
          fun rest => ?_⟩
        rw [List.cons_append, List.nil_append,
          scanStringStep_esc1 (by decide) (rfl : escDecode1 'b' = some (Char.ofNat 8)),
          ← h3, Char.ofNat_toNat]
      · by_cases h4 : c.toNat = 9
        · refine ⟨'\\', ['t'], by rw [escChar, if_neg h1, if_neg h2, if_neg h3,
            if_pos h4], fun rest => ?_⟩
          rw [List.cons_append, List.nil_append,
            scanStringStep_esc1 (by decide) (rfl : escDecode1 't' = some (Char.ofNat 9)),
            ← h4, Char.ofNat_toNat]
        · by_cases h5 : c.toNat = 10
          · refine ⟨'\\', ['n'], by rw [escChar, if_neg h1, if_neg h2, if_neg h3,
              if_neg h4, if_pos h5], fun rest => ?_⟩
            rw [List.cons_append, List.nil_append,
              scanStringStep_esc1 (by decide)
                (rfl : escDecode1 'n' = some (Char.ofNat 10)),
              ← h5, Char.ofNat_toNat]
          · by_cases h6 : c.toNat = 12
            · refine ⟨'\\', ['f'], by rw [escChar, if_neg h1, if_neg h2, if_neg h3,
                if_neg h4, if_neg h5, if_pos h6], fun rest => ?_⟩
              rw [List.cons_append, List.nil_append,
                scanStringStep_esc1 (by decide)
                  (rfl : escDecode1 'f' = some (Char.ofNat 12)),
                ← h6, Char.ofNat_toNat]
            · by_cases h7 : c.toNat = 13
              · refine ⟨'\\', ['r'], by rw [escChar, if_neg h1, if_neg h2, if_neg h3,
                  if_neg h4, if_neg h5, if_neg h6, if_pos h7], fun rest => ?_⟩
                rw [List.cons_append, List.nil_append,
                  scanStringStep_esc1 (by decide)
                    (rfl : escDecode1 'r' = some (Char.ofNat 13)),
                  ← h7, Char.ofNat_toNat]
              · by_cases h8 : c.toNat < 32
                · refine ⟨'\\', ['u', '0', '0', hexDigit (c.toNat / 16),
                    hexDigit (c.toNat % 16)], by rw [escChar, if_neg h1, if_neg h2,
                      if_neg h3, if_neg h4, if_neg h5, if_neg h6, if_neg h7,
                      if_pos h8], fun rest => ?_⟩
                  have hd1 : c.toNat / 16 < 16 := by omega
                  have hd2 : c.toNat % 16 < 16 := Nat.mod_lt _ (by omega)
                  simp only [List.cons_append, List.nil_append]
                  rw [scanStringStep,
                    if_neg (by decide : ¬ ('\\' : Char) = '"'), if_pos rfl,
                    scanEscape, if_pos rfl, scanUnicodeEscape, scanHex4]
                  rw [show (isHexDigit '0' && isHexDigit '0'
                      && isHexDigit (hexDigit (c.toNat / 16))
                      && isHexDigit (hexDigit (c.toNat % 16))) = true from by
                    rw [isHexDigit_hexDigit _ hd1, isHexDigit_hexDigit _ hd2]; rfl]
                  rw [if_pos rfl]
                  try simp only []
                  rw [hexVal_hexDigit _ hd1, hexVal_hexDigit _ hd2,
                    show hexVal '0' = 0 from rfl,
                    show 4096 * 0 + 256 * 0 + 16 * (c.toNat / 16) + c.toNat % 16
                      = c.toNat from by omega]
                  rw [if_pos (Or.inl (by omega : c.toNat < 0xD800)), Char.ofNat_toNat]
                  rfl
                · refine ⟨c, [], by rw [escChar, if_neg h1, if_neg h2, if_neg h3,
                    if_neg h4, if_neg h5, if_neg h6, if_neg h7, if_neg h8],
                    fun rest => ?_⟩
                  rw [List.nil_append, scanStringStep, if_neg h1, if_neg h2, if_neg h8]

theorem scanStringLoop_escString (s : List Char) :
    ∀ fuel, (escString s).length + 1 ≤ fuel → ∀ rest,
      scanStringLoop fuel (escString s ++ '"' :: rest) = some (s, rest) := by
  induction s with
  | nil =>
    intro fuel hf rest
    match fuel, hf with
    | f + 1, _ =>
      rw [show escString [] ++ '"' :: rest = '"' :: rest from rfl]
      rw [scanStringLoop]
      rw [show scanStringStep '"' rest = some (none, rest) from by
        rw [scanStringStep, if_pos rfl]]
  | cons c s ih =>
    intro fuel hf rest
    obtain ⟨e1, erest, henc, hstep⟩ := escChar_shape c
    rw [show escString (c :: s) = escChar c ++ escString s from List.flatMap_cons ..,
      henc] at hf ⊢
    simp only [List.length_cons, List.length_append] at hf
    match fuel, hf with
    | f + 1, hf =>
      rw [List.append_assoc, List.cons_append, scanStringLoop,
        hstep (escString s ++ '"' :: rest)]
      show Option.map (fun p => (c :: p.1, p.2))
        (scanStringLoop f (escString s ++ '"' :: rest)) = some (c :: s, rest)
      rw [ih f (by omega) rest]
      rfl

/-! ## Secure-token payload: `{data, timestamp, expiry}` and its JSON codec -/

/-- The token payload object `{data, timestamp, expiry}` built by
`createSecureToken` (`timestamp`/`expiry` are millisecond epoch values; `expiry`
may be negative for pathological TTLs, hence `Int`). -/
structure TokenPayload where
  data : List Char
  timestamp : Int
  expiry : Int
deriving DecidableEq

/-- `JSON.stringify({data, timestamp, expiry})` with field order as constructed
in `createSecureToken`. -/
def stringifyPayload (p : TokenPayload) : List Char :=
  "\x7b\"data\":\"".data ++ escString p.data ++ "\",\"timestamp\":".data
    ++ intRepr p.timestamp ++ ",\"expiry\":".data ++ intRepr p.expiry ++ "\x7d".data

/-- Strip an expected literal from the front of the input. -/
def stripPre : List Char → List Char → Option (List Char)
  | [], l => some l
  | _ :: _, [] => none
  | p :: ps, c :: cs => if p = c then stripPre ps cs else none

theorem stripPre_append (pre rest : List Char) : stripPre pre (pre ++ rest) = some rest := by
  induction pre with
  | nil => rfl
  | cons p ps ih => rw [List.cons_append, stripPre, if_pos rfl, ih]

theorem scanStringLoop_mono {s : List Char} {res} {f1 f2 : Nat} (hle : f1 ≤ f2)
    (h : scanStringLoop f1 s = some res) : scanStringLoop f2 s = some res := by
  induction f1 generalizing s f2 res with
  | zero => rw [scanStringLoop] at h; exact absurd h (by simp)
  | succ f ih =>
    match s with
    | [] => rw [scanStringLoop] at h; exact absurd h (by simp)
    | c :: rest =>
      match f2, hle with
      | f2 + 1, hle =>
        rw [scanStringLoop] at h ⊢
        match hstep : scanStringStep c rest with
        | some (none, r) =>
          rw [hstep] at h
          exact h
        | some (some ch, r) =>
          rw [hstep] at h
          have h2 : Option.map (fun p => (ch :: p.1, p.2)) (scanStringLoop f r)
              = some res := h
          show Option.map (fun p => (ch :: p.1, p.2)) (scanStringLoop f2 r) = some res
          match hrec : scanStringLoop f r with
          | some p =>
            rw [ih (by omega) hrec]
            rw [hrec] at h2
            exact h2
          | none =>
            rw [hrec] at h2
            exact absurd h2 (by simp)
        | none =>
          rw [hstep] at h
          have h2 : (none : Option (List Char × List Char)) = some res := h
          exact absurd h2 (by simp)

/-- `scanStringLoop` applied exactly as `parseValue` applies it, for a key
with no escapes. -/
theorem scanStringLoop_plain (key : List Char) (hkey : escString key = key)
    (rest : List Char) :
    scanStringLoop ((key ++ '"' :: rest).length + 1) (key ++ '"' :: rest)
      = some (key, rest) := by
  have h := scanStringLoop_escString key ((key ++ '"' :: rest).length + 1)
    (by
      rw [hkey]
      simp only [List.length_append, List.length_cons]
      omega) rest
  rw [hkey] at h
  exact h

theorem scanStringLoop_esc (s rest : List Char) :
    scanStringLoop ((escString s ++ '"' :: rest).length + 1) (escString s ++ '"' :: rest)
      = some (s, rest) :=
  scanStringLoop_escString s _
    (by simp only [List.length_append, List.length_cons]; omega) rest

/-! ## `JSON.parse`: values, grammar and the JavaScript property reads
`verifySecureToken` performs on the result -/

/-- A JavaScript value produced by `JSON.parse`.  Numbers are modelled as
exact rationals (IEEE-754 double rounding of extreme literals is not
modelled). -/
inductive JsonV where
  | jnull
  | jbool (b : Bool)
  | jnum (q : Rat)
  | jstr (s : List Char)
  | jarr (elems : List JsonV)
  | jobj (fields : List (List Char × JsonV))

/-- JSON insignificant whitespace: space, tab, line feed, carriage return. -/
def jsonWsChar (c : Char) : Bool :=
  c = ' ' || c = '\t' || c = '\n' || c = '\r'

def skipWs (l : List Char) : List Char := l.dropWhile jsonWsChar

/-- The exponent part of a JSON number (empty, or `e`/`E`, an optional sign
and at least one digit), applied to the mantissa. -/
def parseExpDigits (m : Rat) (pos : Bool) (l : List Char) : Option (Rat × List Char) :=
  if l.takeWhile isDigitChar = [] then none
  else some ((if pos then m * 10 ^ digitsToNat (l.takeWhile isDigitChar)
      else m / 10 ^ digitsToNat (l.takeWhile isDigitChar)),
    l.dropWhile isDigitChar)

/-- The optional sign in front of the exponent digits. -/
def parseExpSign (m : Rat) : List Char → Option (Rat × List Char)
  | '+' :: r2 => parseExpDigits m true r2
  | '-' :: r2 => parseExpDigits m false r2
  | r => parseExpDigits m true r

def parseExpPart (m : Rat) : List Char → Option (Rat × List Char)
  | [] => some (m, [])
  | c :: r => if c = 'e' ∨ c = 'E' then parseExpSign m r else some (m, c :: r)

/-- The optional fraction (a dot and at least one digit) after the integer
part `ip`, then the exponent part. -/
def parseFracPart (ip : Nat) (l : List Char) : Option (Rat × List Char) :=
  if l.headD ' ' = '.' then
    if l.tail.takeWhile isDigitChar = [] then none
    else parseExpPart ((ip : Rat)
        + (digitsToNat (l.tail.takeWhile isDigitChar) : Rat)
          / 10 ^ (l.tail.takeWhile isDigitChar).length)
      (l.tail.dropWhile isDigitChar)
  else parseExpPart (ip : Rat) l

/-- The unsigned part of a JSON number: `0`, or a nonzero digit followed by
digits (no leading zeros), then fraction and exponent. -/
def parseNumAfterSign : List Char → Option (Rat × List Char)
  | [] => none
  | c :: r =>
    if c = '0' then parseFracPart 0 r
    else if isDigitChar c then
      parseFracPart (digitsToNat ((c :: r).takeWhile isDigitChar))
        ((c :: r).dropWhile isDigitChar)
    else none

/-- A JSON number: an optional leading minus and the unsigned body. -/
def parseNumber : List Char → Option (Rat × List Char)
  | [] => none
  | c :: r =>
    if c = '-' then (parseNumAfterSign r).map (fun p => (-p.1, p.2))
    else parseNumAfterSign (c :: r)

mutual

/-- One JSON value: leading whitespace is skipped, trailing whitespace is
left for the caller.  Dispatch on the first character: object, array,
string, the three literals, else a number.  The branch comparing the head
against `\x7d`/`]` is the `'\x7d' :: r` pattern of an empty object/array
written with `headD`/`tail` so that each step of the grammar is a plain
`if`. -/
def parseValue : Nat → List Char → Option (JsonV × List Char)
  | 0, _ => none
  | f + 1, l =>
    match skipWs l with
    | [] => none
    | c :: r =>
      if c = '\x7b' then
        if (skipWs r).headD ' ' = '\x7d' then some (JsonV.jobj [], (skipWs r).tail)
        else (parseMembers f (skipWs r)).map (fun p => (JsonV.jobj p.1, p.2))
      else if c = '[' then
        if (skipWs r).headD ' ' = ']' then some (JsonV.jarr [], (skipWs r).tail)
        else (parseElems f (skipWs r)).map (fun p => (JsonV.jarr p.1, p.2))
      else if c = '"' then
        (scanStringLoop (r.length + 1) r).map (fun p => (JsonV.jstr p.1, p.2))
      else if c = 't' then
        (stripPre "rue".data r).map (fun r2 => (JsonV.jbool true, r2))
      else if c = 'f' then
        (stripPre "alse".data r).map (fun r2 => (JsonV.jbool false, r2))
      else if c = 'n' then
        (stripPre "ull".data r).map (fun r2 => (JsonV.jnull, r2))
      else
        (parseNumber (c :: r)).map (fun p => (JsonV.jnum p.1, p.2))

/-- The elements of a non-empty array body, starting at the first element. -/
def parseElems : Nat → List Char → Option (List JsonV × List Char)
  | 0, _ => none
  | f + 1, l =>
    match parseValue f l with
    | none => none
    | some (v, r) =>
      match skipWs r with
      | c :: r2 =>
        if c = ',' then (parseElems f r2).map (fun p => (v :: p.1, p.2))
        else if c = ']' then some ([v], r2)
        else none
      | [] => none

/-- The members of a non-empty object body, starting at the first key's
quote. -/
def parseMembers : Nat → List Char → Option (List (List Char × JsonV) × List Char)
  | 0, _ => none
  | f + 1, l =>
    match l with
    | [] => none
    | c :: r =>
      if c = '"' then
        match scanStringLoop (r.length + 1) r with
        | none => none
        | some (k, r1) =>
          match skipWs r1 with
          | c2 :: r2 =>
            if c2 = ':' then
              match parseValue f r2 with
              | none => none
              | some (v, r3) =>
                match skipWs r3 with
                | c3 :: r4 =>
                  if c3 = ',' then
                    (parseMembers f (skipWs r4)).map (fun p => ((k, v) :: p.1, p.2))
                  else if c3 = '\x7d' then some ([(k, v)], r4)
                  else none
                | [] => none
            else none
          | [] => none
      else none

end

/-- `JSON.parse`: one JSON text with optional surrounding whitespace.  The
fuel `2 * length + 2` dominates the recursion depth, since every two nested
calls consume at least one input character. -/
def jsonParse (l : List Char) : Option JsonV :=
  match parseValue (2 * l.length + 2) l with
  | some (v, rest) => if skipWs rest = [] then some v else none
  | none => none

/-- The value of a property among parsed members, as a JavaScript object
literal resolves duplicate keys: the later member wins. -/
def lookupLast (key : List Char) : List (List Char × JsonV) → Option JsonV
  | [] => none
  | (k, v) :: rest =>
    match lookupLast key rest with
    | some w => some w
    | none => if k = key then some v else none

/-- `decoded.expiry` as JavaScript reads it: objects yield the member (or
`undefined` = `none`); numbers, strings, booleans and arrays have no such
property, so the read yields `undefined`.  (`null` throws a `TypeError`,
which `verifySecureToken` handles separately.) -/
def jsGetExpiry : JsonV → Option JsonV
  | .jobj fields => lookupLast "expiry".data fields
  | _ => none

/-- A JavaScript number as the `>` comparison needs it: `NaN`, a signed
infinity, or a finite value. -/
inductive JNum where
  | nan
  | inf (pos : Bool)
  | fin (q : Rat)

/-- JavaScript string trimming for `ToNumber`: WhiteSpace (tab, VT, FF,
space, NBSP, ZWNBSP and Unicode category Zs) and LineTerminators. -/
def jsTrimChar (c : Char) : Bool :=
  c = ' ' || c = '\t' || c = '\n' || c = '\r'
    || decide (c.toNat = 11) || decide (c.toNat = 12)
    || decide (c.toNat = 0xA0) || decide (c.toNat = 0xFEFF)
    || decide (c.toNat = 0x1680)
    || decide (0x2000 ≤ c.toNat ∧ c.toNat ≤ 0x200A)
    || decide (c.toNat = 0x2028) || decide (c.toNat = 0x2029)
    || decide (c.toNat = 0x202F) || decide (c.toNat = 0x205F)
    || decide (c.toNat = 0x3000)

def jsTrim (s : List Char) : List Char :=
  ((s.dropWhile jsTrimChar).reverse.dropWhile jsTrimChar).reverse

/-- The value of a hex digit restricted to a radix (covers the binary, octal
and hex digit sets). -/
def radixVal (base : Nat) (c : Char) : Option Nat :=
  if isHexDigit c ∧ hexVal c < base then some (hexVal c) else none

/-- A non-empty all-digit numeral in the given radix, consuming the whole
input. -/
def radixNat (base : Nat) (l : List Char) : Option Nat :=
  if l ≠ [] ∧ l.all (fun c => (radixVal base c).isSome) then
    some (l.foldl (fun a c => base * a + (radixVal base c).getD 0) 0)
  else none

/-- The exponent digits of a string numeric literal (whole rest). -/
def strExpDigits (l : List Char) (pos : Bool) : Option Int :=
  if l ≠ [] ∧ l.all isDigitChar then
    some (if pos then (digitsToNat l : Int) else -(digitsToNat l : Int))
  else none

/-- The exponent of a string numeric literal: empty, or `e`/`E` with an
optional sign and digits consuming the whole rest. -/
def strExp : List Char → Option Int
  | [] => some 0
  | c :: r =>
    if c = 'e' ∨ c = 'E' then
      match r with
      | '+' :: r2 => strExpDigits r2 true
      | '-' :: r2 => strExpDigits r2 false
      | _ => strExpDigits r true
    else none

/-- Scale a mantissa by a signed power of ten. -/
def applyExp (m : Rat) : Int → Rat
  | .ofNat n => m * 10 ^ n
  | .negSucc n => m / 10 ^ (n + 1)

/-- `StrUnsignedDecimalLiteral`: `Infinity`, or decimal digits with an
optional fraction and exponent (ECMAScript allows `5.`, `.5` and leading
zeros here, unlike JSON). -/
def strUnsignedDec (l : List Char) : Option JNum :=
  if l = "Infinity".data then some (.inf true)
  else
    match l.dropWhile isDigitChar with
    | '.' :: r2 =>
      if l.takeWhile isDigitChar = [] ∧ r2.takeWhile isDigitChar = [] then none
      else (strExp (r2.dropWhile isDigitChar)).map (fun e =>
        .fin (applyExp ((digitsToNat (l.takeWhile isDigitChar) : Rat)
          + (digitsToNat (r2.takeWhile isDigitChar) : Rat)
            / 10 ^ (r2.takeWhile isDigitChar).length) e))
    | r1 =>
      if l.takeWhile isDigitChar = [] then none
      else (strExp r1).map (fun e =>
        .fin (applyExp (digitsToNat (l.takeWhile isDigitChar) : Rat) e))

/-- JavaScript `ToNumber` on a string: trim, the empty string is 0, an
optional sign with a decimal literal or `Infinity`, or an unsigned
`0x`/`0o`/`0b` numeral; everything else is `NaN`. -/
def strToNumber (s : List Char) : JNum :=
  match jsTrim s with
  | [] => .fin 0
  | '+' :: r => (strUnsignedDec r).getD .nan
  | '-' :: r =>
    match strUnsignedDec r with
    | some (.fin q) => .fin (-q)
    | some (.inf _) => .inf false
    | _ => .nan
  | '0' :: c :: r =>
    if c = 'x' ∨ c = 'X' then ((radixNat 16 r).map (fun n => JNum.fin n)).getD .nan
    else if c = 'o' ∨ c = 'O' then ((radixNat 8 r).map (fun n => JNum.fin n)).getD .nan
    else if c = 'b' ∨ c = 'B' then ((radixNat 2 r).map (fun n => JNum.fin n)).getD .nan
    else (strUnsignedDec ('0' :: c :: r)).getD .nan
  | t => (strUnsignedDec t).getD .nan

mutual

/-- JavaScript `ToNumber` of a JSON-parsed value, after `ToPrimitive`:
`null` is 0, booleans are 0/1, strings go through the string grammar,
arrays stringify by joining with commas (so only `[]`, which joins to the
empty string, and singletons can be numeric), and plain objects stringify
to `[object Object]`, which is `NaN`. -/
def jsToNumber : JsonV → JNum
  | .jnull => .fin 0
  | .jbool b => .fin (if b then 1 else 0)
  | .jnum q => .fin q
  | .jstr s => strToNumber s
  | .jarr l => arrToNumber l
  | .jobj _ => .nan

/-- `ToNumber(String(array))`: `[]` joins to the empty string (0), two or
more elements always contain a comma (`NaN`), a singleton is its element's
join-string converted back. -/
def arrToNumber : List JsonV → JNum
  | [] => .fin 0
  | [x] => elemToNumber x
  | _ :: _ :: _ => .nan

/-- `ToNumber(String(x))` for a single join element: `null` joins as the
empty string, booleans join as `true`/`false` (never numeric), numbers
round-trip, strings and nested arrays recurse. -/
def elemToNumber : JsonV → JNum
  | .jnull => .fin 0
  | .jbool _ => .nan
  | .jnum q => .fin q
  | .jstr s => strToNumber s
  | .jarr l => arrToNumber l
  | .jobj _ => .nan

end

/-- `Date.now() > decoded.expiry` with JavaScript's abstract relational
comparison: `undefined` and `NaN` compare false, `+Infinity` false,
`-Infinity` true, finite values numerically. -/
def jsNowGt (now : Int) : Option JsonV → Bool
  | none => false
  | some v =>
    match jsToNumber v with
    | .nan => false
    | .inf pos => !pos
    | .fin q => decide ((now : Rat) > q)

/-- The `JSON.parse` image of a canonical token payload. -/
def canonicalPayloadJson (data : List Char) (ts e : Int) : JsonV :=
  .jobj [("data".data, .jstr data), ("timestamp".data, .jnum (ts : Rat)),
    ("expiry".data, .jnum (e : Rat))]

theorem digit_ne_of {c d : Char} (h : isDigitChar c = true)
    (hd : isDigitChar d = false) : c ≠ d := by
  intro hc
  rw [hc, hd] at h
  exact absurd h (by simp)

theorem jsonWsChar_eq_false {c : Char} (h1 : c ≠ ' ') (h2 : c ≠ '\t')
    (h3 : c ≠ '\n') (h4 : c ≠ '\r') : jsonWsChar c = false := by
  simp [jsonWsChar, h1, h2, h3, h4]

theorem skipWs_cons_ne (c : Char) (r : List Char) (h : jsonWsChar c = false) :
    skipWs (c :: r) = c :: r := by
  simp [skipWs, List.dropWhile_cons, h]

theorem digitChar_ne_zero : ∀ m < 10, 0 < m → digitChar m ≠ '0' := by decide

theorem natDigitsLoop_head : ∀ fuel n, 0 < n → n < 10 ^ fuel →
    ∃ d ds, natDigitsLoop fuel n = d :: ds ∧ isDigitChar d = true ∧ d ≠ '0' := by
  intro fuel
  induction fuel with
  | zero =>
    intro n h1 h2
    rw [pow_zero] at h2
    omega
  | succ f ih =>
    intro n h1 h2
    rw [natDigitsLoop]
    split
    · rename_i hlt
      exact ⟨digitChar n, [], rfl, isDigitChar_digitChar n hlt,
        digitChar_ne_zero n hlt h1⟩
    · rename_i hge
      obtain ⟨d, ds, hd, hdig, hne⟩ := ih (n / 10) (by omega)
        (by rw [pow_succ] at h2; omega)
      exact ⟨d, ds ++ [digitChar (n % 10)], by rw [hd, List.cons_append], hdig, hne⟩

theorem natRepr_pos_head (n : Nat) (hn : n ≠ 0) :
    ∃ d ds, natRepr n = d :: ds ∧ isDigitChar d = true ∧ d ≠ '0' :=
  natDigitsLoop_head (n + 1) n (by omega) (lt_ten_pow n)

theorem parseNumAfterSign_natRepr (n : Nat) {c : Char} (r : List Char)
    (hdig : isDigitChar c = false) (hdot : c ≠ '.') (he : c ≠ 'e') (hE : c ≠ 'E') :
    parseNumAfterSign (natRepr n ++ c :: r) = some ((n : Rat), c :: r) := by
  have hndig : ¬ isDigitChar c = true := by simp [hdig]
  have hexp : parseExpPart (n : Rat) (c :: r) = some ((n : Rat), c :: r) := by
    rw [parseExpPart, if_neg (not_or.mpr ⟨he, hE⟩)]
  by_cases hn : n = 0
  · subst hn
    rw [show natRepr 0 = ['0'] from rfl, List.cons_append, List.nil_append,
      parseNumAfterSign, if_pos rfl, parseFracPart, List.headD_cons, if_neg hdot]
    rw [show ((0 : Nat) : Rat) = (0 : Rat) from by norm_num] at hexp ⊢
    exact hexp
  · obtain ⟨d, ds, hd, hddig, hdne0⟩ := natRepr_pos_head n hn
    obtain ⟨htake, hdrop⟩ := takeWhile_all_append (natRepr_digits n) hndig
    rw [hd] at htake hdrop
    rw [hd, List.cons_append, parseNumAfterSign, if_neg hdne0, if_pos hddig]
    rw [show d :: (ds ++ c :: r) = (d :: ds) ++ c :: r from rfl, htake, hdrop]
    rw [← hd, digitsToNat_natRepr]
    rw [parseFracPart, List.headD_cons, if_neg hdot]
    exact hexp

theorem parseNumber_intRepr (i : Int) {c : Char} (r : List Char)
    (hdig : isDigitChar c = false) (hdot : c ≠ '.') (he : c ≠ 'e') (hE : c ≠ 'E') :
    parseNumber (intRepr i ++ c :: r) = some ((i : Rat), c :: r) := by
  by_cases hneg : i < 0
  · rw [intRepr, if_pos hneg, List.cons_append, parseNumber, if_pos rfl,
      parseNumAfterSign_natRepr _ r hdig hdot he hE, Option.map_some']
    have hcast : -(((-i).toNat : Nat) : Rat) = (i : Rat) := by
      have h1 : (((-i).toNat : Nat) : Int) = -i := by omega
      rw [show (((-i).toNat : Nat) : Rat) = ((((-i).toNat : Nat) : Int) : Rat) from by
        push_cast; ring, h1]
      push_cast
      ring
    rw [hcast]
  · rw [intRepr, if_neg hneg]
    obtain ⟨d, ds, hd⟩ : ∃ d ds, natRepr i.toNat = d :: ds := by
      match h : natRepr i.toNat with
      | [] => exact absurd h (natRepr_ne_nil _)
      | d :: ds => exact ⟨d, ds, rfl⟩
    have hddig : isDigitChar d = true := natRepr_digits i.toNat d (by rw [hd]; simp)
    rw [hd, List.cons_append, parseNumber, if_neg (digit_ne_of hddig (by decide)),
      show d :: (ds ++ c :: r) = (d :: ds) ++ c :: r from rfl, ← hd,
      parseNumAfterSign_natRepr _ r hdig hdot he hE]
    have hcast : ((i.toNat : Nat) : Rat) = (i : Rat) := by
      have h1 : ((i.toNat : Nat) : Int) = i := by omega
      rw [show ((i.toNat : Nat) : Rat) = (((i.toNat : Nat) : Int) : Rat) from by
        push_cast; ring, h1]
    rw [hcast]

theorem parseValue_number (f : Nat) (i : Int) {c : Char} (r : List Char)
    (hdig : isDigitChar c = false) (hdot : c ≠ '.') (he : c ≠ 'e') (hE : c ≠ 'E') :
    parseValue (f + 1) (intRepr i ++ c :: r)
      = some (JsonV.jnum (i : Rat), c :: r) := by
  obtain ⟨d, ds, hd, hddig_or⟩ : ∃ d ds, intRepr i = d :: ds
      ∧ (isDigitChar d = true ∨ d = '-') := by
    by_cases hneg : i < 0
    · exact ⟨'-', natRepr (-i).toNat, by rw [intRepr, if_pos hneg], Or.inr rfl⟩
    · obtain ⟨d, ds, hd⟩ : ∃ d ds, natRepr i.toNat = d :: ds := by
        match h : natRepr i.toNat with
        | [] => exact absurd h (natRepr_ne_nil _)
        | d :: ds => exact ⟨d, ds, rfl⟩
      exact ⟨d, ds, by rw [intRepr, if_neg hneg, hd],
        Or.inl (natRepr_digits i.toNat d (by rw [hd]; simp))⟩
  have hne : ∀ x : Char, isDigitChar x = false → ('-' : Char) ≠ x → d ≠ x := by
    intro x hx hxd
    rcases hddig_or with h | h
    · exact digit_ne_of h hx
    · subst h; exact hxd
  have hws : jsonWsChar d = false := by
    rcases hddig_or with h | h
    · exact jsonWsChar_eq_false (digit_ne_of h (by decide)) (digit_ne_of h (by decide))
        (digit_ne_of h (by decide)) (digit_ne_of h (by decide))
    · subst h; decide
  rw [hd, List.cons_append, parseValue, skipWs_cons_ne d _ hws]
  try simp only []
  rw [if_neg (hne '\x7b' (by decide) (by decide)),
    if_neg (hne '[' (by decide) (by decide)),
    if_neg (hne '"' (by decide) (by decide)),
    if_neg (hne 't' (by decide) (by decide)),
    if_neg (hne 'f' (by decide) (by decide)),
    if_neg (hne 'n' (by decide) (by decide))]
  rw [show d :: (ds ++ c :: r) = (d :: ds) ++ c :: r from rfl, ← hd,
    parseNumber_intRepr i r hdig hdot he hE, Option.map_some']

theorem parseValue_stringify (p : TokenPayload) (f : Nat) :
    parseValue (f + 5) (stringifyPayload p)
      = some (canonicalPayloadJson p.data p.timestamp p.expiry, []) := by
  have hkey_data : escString ['d', 'a', 't', 'a'] = ['d', 'a', 't', 'a'] := by rfl
  have hkey_ts : escString ['t', 'i', 'm', 'e', 's', 't', 'a', 'm', 'p']
      = ['t', 'i', 'm', 'e', 's', 't', 'a', 'm', 'p'] := by rfl
  have hkey_exp : escString ['e', 'x', 'p', 'i', 'r', 'y']
      = ['e', 'x', 'p', 'i', 'r', 'y'] := by rfl
  have hT : stringifyPayload p
      = '\x7b' :: '"' :: (['d', 'a', 't', 'a'] ++ '"' :: ':' :: '"'
          :: (escString p.data ++ '"' :: ',' :: '"'
            :: (['t', 'i', 'm', 'e', 's', 't', 'a', 'm', 'p'] ++ '"' :: ':'
              :: (intRepr p.timestamp ++ ',' :: '"'
                :: (['e', 'x', 'p', 'i', 'r', 'y'] ++ '"' :: ':'
                  :: (intRepr p.expiry ++ ['\x7d'])))))) := by
    simp [stringifyPayload, List.append_assoc]
  rw [hT, show f + 5 = (f + 4) + 1 from rfl, parseValue,
    skipWs_cons_ne '\x7b' _ (by decide)]
  try simp only [if_true, if_false, List.headD_cons, List.tail_cons, Option.map_some']
  rw [skipWs_cons_ne '"' _ (by decide)]
  try simp only [if_true, if_false, List.headD_cons, List.tail_cons, Option.map_some']
  rw [if_neg (show ¬ ('"' : Char) = '\x7d' from by decide)]
  try simp only [if_true, if_false, List.headD_cons, List.tail_cons, Option.map_some']
  rw [show f + 4 = (f + 3) + 1 from rfl, parseMembers]
  try simp only [if_true, if_false, List.headD_cons, List.tail_cons, Option.map_some']
  rw [scanStringLoop_plain ['d', 'a', 't', 'a'] hkey_data _]
  try simp only [if_true, if_false, List.headD_cons, List.tail_cons, Option.map_some']
  rw [skipWs_cons_ne ':' _ (by decide)]
  try simp only [if_true, if_false, List.headD_cons, List.tail_cons, Option.map_some']
  rw [show f + 3 = (f + 2) + 1 from rfl, parseValue, skipWs_cons_ne '"' _ (by decide)]
  try simp only [if_true, if_false, List.headD_cons, List.tail_cons, Option.map_some']
  rw [if_neg (show ¬ ('"' : Char) = '\x7b' from by decide),
    if_neg (show ¬ ('"' : Char) = '[' from by decide)]
  try simp only [if_true, if_false, List.headD_cons, List.tail_cons, Option.map_some']
  rw [scanStringLoop_esc p.data _]
  try simp only [if_true, if_false, List.headD_cons, List.tail_cons, Option.map_some']
  rw [skipWs_cons_ne ',' _ (by decide)]
  try simp only [if_true, if_false, List.headD_cons, List.tail_cons, Option.map_some']
  rw [skipWs_cons_ne '"' _ (by decide), parseMembers]
  try simp only [if_true, if_false, List.headD_cons, List.tail_cons, Option.map_some']
  rw [scanStringLoop_plain ['t', 'i', 'm', 'e', 's', 't', 'a', 'm', 'p'] hkey_ts _]
  try simp only [if_true, if_false, List.headD_cons, List.tail_cons, Option.map_some']
  rw [skipWs_cons_ne ':' _ (by decide)]
  try simp only [if_true, if_false, List.headD_cons, List.tail_cons, Option.map_some']
  rw [show f + 2 = (f + 1) + 1 from rfl,
    parseValue_number (f + 1) p.timestamp _ (by decide) (by decide) (by decide)
      (by decide)]
  try simp only [if_true, if_false, List.headD_cons, List.tail_cons, Option.map_some']
  rw [skipWs_cons_ne ',' _ (by decide)]
  try simp only [if_true, if_false, List.headD_cons, List.tail_cons, Option.map_some']
  rw [skipWs_cons_ne '"' _ (by decide), parseMembers]
  try simp only [if_true, if_false, List.headD_cons, List.tail_cons, Option.map_some']
  rw [scanStringLoop_plain ['e', 'x', 'p', 'i', 'r', 'y'] hkey_exp _]
  try simp only [if_true, if_false, List.headD_cons, List.tail_cons, Option.map_some']
  rw [skipWs_cons_ne ':' _ (by decide)]
  try simp only [if_true, if_false, List.headD_cons, List.tail_cons, Option.map_some']
  rw [parseValue_number f p.expiry _ (by decide) (by decide) (by decide) (by decide)]
  try simp only [if_true, if_false, List.headD_cons, List.tail_cons, Option.map_some']
  rw [skipWs_cons_ne '\x7d' _ (by decide)]
  try simp only [if_true, if_false, List.headD_cons, List.tail_cons, Option.map_some']
  rw [if_neg (show ¬ ('\x7d' : Char) = ',' from by decide)]
  try simp only [if_true, if_false, List.headD_cons, List.tail_cons, Option.map_some']
  rfl

theorem jsonParse_stringify (p : TokenPayload) :
    jsonParse (stringifyPayload p)
      = some (canonicalPayloadJson p.data p.timestamp p.expiry) := by
  have hlen : 9 ≤ (stringifyPayload p).length := by
    simp only [stringifyPayload, List.length_append, List.length_cons, List.length_nil]
    omega
  rw [jsonParse,
    show 2 * (stringifyPayload p).length + 2
      = (2 * (stringifyPayload p).length - 3) + 5 from by omega,
    parseValue_stringify]
  rfl

/-! ## AES-256-CBC with PKCS#7 padding

`crypto.createCipheriv('aes-256-cbc', key, iv)` applies the keyed AES block
permutation in CBC mode with PKCS#7 padding.  The AES block permutation itself
is the external primitive: it is abstracted as a `BlockCipher` (the key is
fixed at construction, mirroring the cipher instance's immutable derived key),
carrying the inverse and well-formedness laws the library guarantees.  CBC
chaining and PKCS#7 are implemented concretely below. -/

/-- An abstract keyed 16-byte block permutation (the AES-256 core). -/
structure BlockCipher where
  enc : List Nat → List Nat
  dec : List Nat → List Nat
  enc_length : ∀ b, b.length = 16 → (enc b).length = 16
  enc_lt : ∀ b, b.length = 16 → (∀ x ∈ b, x < 256) → ∀ x ∈ enc b, x < 256
  dec_enc : ∀ b, b.length = 16 → (∀ x ∈ b, x < 256) → dec (enc b) = b

/-- The identity block permutation: a legitimate `BlockCipher` instance used to
evaluate the construction on concrete inputs. -/
def idCipher : BlockCipher where
  enc := id
  dec := id
  enc_length := fun _ h => h
  enc_lt := fun _ _ h => h
  dec_enc := fun _ _ _ => rfl

def xorBytes (a b : List Nat) : List Nat := List.zipWith (· ^^^ ·) a b

def pkcs7Pad (l : List Nat) : List Nat :=
  l ++ List.replicate (16 - l.length % 16) (16 - l.length % 16)

def pkcs7Unpad (l : List Nat) : Option (List Nat) :=
  match l.getLast? with
  | none => none
  | some k =>
    if 1 ≤ k ∧ k ≤ 16 ∧ k ≤ l.length ∧ (l.drop (l.length - k)).all (· == k) then
      some (l.take (l.length - k))
    else none

/-- Split into 16-byte blocks (fuelled loop). -/
def toBlocksLoop : Nat → List Nat → List (List Nat)
  | _, [] => []
  | 0, _ :: _ => []
  | fuel + 1, b :: l => (b :: l).take 16 :: toBlocksLoop fuel ((b :: l).drop 16)

def toBlocks (l : List Nat) : List (List Nat) := toBlocksLoop l.length l

/-- CBC encryption: each block is XORed with the previous ciphertext block
(initially the IV) before the block permutation. -/
def cbcEnc (E : List Nat → List Nat) : List Nat → List (List Nat) → List (List Nat)
  | _, [] => []
  | prev, b :: bs => E (xorBytes prev b) :: cbcEnc E (E (xorBytes prev b)) bs

/-- CBC decryption. -/
def cbcDec (D : List Nat → List Nat) : List Nat → List (List Nat) → List (List Nat)
  | _, [] => []
  | prev, c :: cs => xorBytes prev (D c) :: cbcDec D c cs

theorem xorBytes_length {a b : List Nat} : (xorBytes a b).length = min a.length b.length :=
  List.length_zipWith ..

theorem xorBytes_lt : ∀ {a b : List Nat}, (∀ x ∈ a, x < 256) → (∀ x ∈ b, x < 256) →
    ∀ x ∈ xorBytes a b, x < 256 := by
  intro a
  induction a with
  | nil => intro b _ _ x hx; simp [xorBytes] at hx
  | cons y a ih =>
    intro b ha hb x hx
    match b with
    | [] => simp [xorBytes] at hx
    | z :: b =>
      rw [show xorBytes (y :: a) (z :: b) = (y ^^^ z) :: xorBytes a b from rfl,
        List.mem_cons] at hx
      rcases hx with hx | hx
      · subst hx
        have h1 : y < 256 := ha y (by simp)
        have h2 : z < 256 := hb z (by simp)
        have e : (2 : Nat) ^ 8 = 256 := by norm_num
        have hlt := Nat.xor_lt_two_pow (x := y) (y := z) (n := 8) (e ▸ h1) (e ▸ h2)
        rw [e] at hlt
        exact hlt
      · exact ih (fun u hu => ha u (by simp [hu])) (fun u hu => hb u (by simp [hu])) x hx

theorem xorBytes_cancel {a b : List Nat} (h : a.length = b.length) :
    xorBytes a (xorBytes a b) = b := by
  induction a generalizing b with
  | nil =>
    match b, h with
    | [], _ => rfl
  | cons x a ih =>
    match b, h with
    | y :: b, h =>
      show (x ^^^ (x ^^^ y)) :: xorBytes a (xorBytes a b) = y :: b
      rw [Nat.xor_cancel_left, ih (by simpa using h)]

theorem cbcDec_cbcEnc (C : BlockCipher) :
    ∀ (blocks : List (List Nat)) (prev : List Nat), prev.length = 16 →
      (∀ x ∈ prev, x < 256) →
      (∀ b ∈ blocks, b.length = 16 ∧ ∀ x ∈ b, x < 256) →
      cbcDec C.dec prev (cbcEnc C.enc prev blocks) = blocks := by
  intro blocks
  induction blocks with
  | nil => intro prev _ _ _; rfl
  | cons b bs ih =>
    intro prev hprev hprevlt hblocks
    obtain ⟨hb16, hblt⟩ := hblocks b (by simp)
    have hxlen : (xorBytes prev b).length = 16 := by
      rw [xorBytes_length, hprev, hb16]
      rfl
    have hxlt : ∀ x ∈ xorBytes prev b, x < 256 := xorBytes_lt hprevlt hblt
    show xorBytes prev (C.dec (C.enc (xorBytes prev b)))
        :: cbcDec C.dec (C.enc (xorBytes prev b)) (cbcEnc C.enc (C.enc (xorBytes prev b)) bs)
        = b :: bs
    rw [C.dec_enc _ hxlen hxlt, xorBytes_cancel (by rw [hprev, hb16]),
      ih (C.enc (xorBytes prev b)) (C.enc_length _ hxlen) (C.enc_lt _ hxlen hxlt)
        (fun v hv => hblocks v (by simp [hv]))]

theorem pkcs7Pad_length (l : List Nat) :
    (pkcs7Pad l).length = l.length + (16 - l.length % 16) := by
  simp [pkcs7Pad]

theorem pkcs7Pad_length_mod (l : List Nat) : (pkcs7Pad l).length % 16 = 0 := by
  rw [pkcs7Pad_length]
  omega

theorem pkcs7Pad_lt {l : List Nat} (h : ∀ x ∈ l, x < 256) :
    ∀ x ∈ pkcs7Pad l, x < 256 := by
  intro x hx
  rw [pkcs7Pad, List.mem_append] at hx
  rcases hx with hx | hx
  · exact h x hx
  · have := List.eq_of_mem_replicate hx
    omega

theorem getLast?_replicate_pos {k x : Nat} (h : 1 ≤ k) :
    (List.replicate k x).getLast? = some x := by
  induction k with
  | zero => omega
  | succ n ih =>
    match n, ih with
    | 0, _ => rfl
    | m + 1, ih =>
      rw [List.replicate_succ, List.replicate_succ, List.getLast?_cons_cons,
        ← List.replicate_succ, ih (by omega)]

theorem pkcs7Unpad_pkcs7Pad (l : List Nat) : pkcs7Unpad (pkcs7Pad l) = some l := by
  have hk1 : 1 ≤ 16 - l.length % 16 := by omega
  have hlast : (pkcs7Pad l).getLast? = some (16 - l.length % 16) := by
    rw [pkcs7Pad, List.getLast?_append, getLast?_replicate_pos hk1]
    rfl
  have hlen := pkcs7Pad_length l
  have hdrop : (pkcs7Pad l).drop ((pkcs7Pad l).length - (16 - l.length % 16))
      = List.replicate (16 - l.length % 16) (16 - l.length % 16) := by
    rw [hlen, show l.length + (16 - l.length % 16) - (16 - l.length % 16)
      = l.length from by omega, pkcs7Pad, List.drop_left]
  have hall : ((pkcs7Pad l).drop ((pkcs7Pad l).length - (16 - l.length % 16))).all
      (· == (16 - l.length % 16)) = true := by
    rw [hdrop, List.all_eq_true]
    intro x hx
    have := List.eq_of_mem_replicate hx
    simp [this]
  have htake : (pkcs7Pad l).take ((pkcs7Pad l).length - (16 - l.length % 16)) = l := by
    rw [hlen, show l.length + (16 - l.length % 16) - (16 - l.length % 16)
      = l.length from by omega, pkcs7Pad, List.take_left]
  rw [pkcs7Unpad, hlast]
  try simp only []
  rw [if_pos ⟨hk1, by omega, by rw [hlen]; omega, hall⟩, htake]

theorem toBlocksLoop_flatten : ∀ fuel (l : List Nat), l.length ≤ fuel →
    (toBlocksLoop fuel l).flatten = l := by
  intro fuel
  induction fuel with
  | zero =>
    intro l h
    match l with
    | [] => rfl
    | c :: l => simp at h
  | succ f ih =>
    intro l h
    match l with
    | [] => rfl
    | b :: l0 =>
      rw [toBlocksLoop, List.flatten_cons,
        ih ((b :: l0).drop 16) (by simp only [List.length_drop, List.length_cons] at h ⊢; omega),
        List.take_append_drop]

theorem toBlocksLoop_len16 : ∀ fuel (l : List Nat), l.length ≤ fuel →
    l.length % 16 = 0 → ∀ b ∈ toBlocksLoop fuel l, b.length = 16 := by
  intro fuel
  induction fuel with
  | zero =>
    intro l h _ b hb
    match l with
    | [] => simp [toBlocksLoop] at hb
    | c :: l => simp at h
  | succ f ih =>
    intro l h hmod b hb
    match l with
    | [] => simp [toBlocksLoop] at hb
    | c :: l0 =>
      rw [toBlocksLoop, List.mem_cons] at hb
      have hlen : (c :: l0).length ≥ 16 := by
        simp only [List.length_cons] at hmod ⊢
        omega
      rcases hb with hb | hb
      · rw [hb, List.length_take]
        omega
      · exact ih ((c :: l0).drop 16) (by simp only [List.length_drop, List.length_cons] at h ⊢; omega)
          (by rw [List.length_drop]; omega) b hb

theorem toBlocks_flatten : ∀ (bs : List (List Nat)), (∀ b ∈ bs, b.length = 16) →
    ∀ fuel, bs.flatten.length ≤ fuel → toBlocksLoop fuel bs.flatten = bs := by
  intro bs
  induction bs with
  | nil =>
    intro _ fuel _
    match fuel with
    | 0 => rfl
    | f + 1 => rfl
  | cons b bs ih =>
    intro hlen fuel hfuel
    have hb : b.length = 16 := hlen b (by simp)
    rw [List.flatten_cons] at hfuel ⊢
    match b, hb with
    | x :: xs, hb =>
      rw [List.length_append] at hfuel
      match fuel, hfuel with
      | 0, hfuel => exact absurd hfuel (by simp only [List.length_cons]; omega)
      | f + 1, hfuel =>
        rw [List.cons_append, toBlocksLoop, ← List.cons_append,
          List.take_left' hb, List.drop_left' hb,
          ih (fun v hv => hlen v (by simp [hv])) f (by omega)]

/-! ## `PasswordEncryption` (`scripts/encryptPassword.js`)

The class holds `algorithm = 'aes-256-cbc'`, `secretKey = prepareSecretKey(...)`
and `ivLength = 16`.  The derived key is baked into the `BlockCipher` parameter
(`createCipheriv(algorithm, Buffer.from(secretKey, 'hex'), iv)`), and the fresh
random IV of each `encrypt` call is passed explicitly. -/

/-- The test `/^[0-9a-fA-F]{64}$/.test(key)`. -/
def isHex64 (key : List Char) : Bool := decide (key.length = 64) && key.all isHexDigit

/-- `prepareSecretKey`: pass a 64-hex-char key through unchanged, otherwise
derive one as the SHA-256 hex digest of the key's UTF-8 bytes. -/
def prepareSecretKey (key : List Char) : List Char :=
  if isHex64 key then key else hexEncode (sha256 (utf8Encode key))

/-- `encrypt(password)`: AES-256-CBC over the UTF-8 bytes with a fresh 16-byte
IV, returning `hex(iv) + ':' + hex(ciphertext)`.  (The `try`/`catch` around the
cipher calls cannot fire in this total model, so `encrypt` is a plain
function.) -/
def encrypt (C : BlockCipher) (iv : List Nat) (password : List Char) : List Char :=
  hexEncode iv ++ ':'
    :: hexEncode ((cbcEnc C.enc iv (toBlocks (pkcs7Pad (utf8Encode password)))).flatten)

/-- The body of `decrypt` before its `catch`: split on `':'`, require exactly
two parts (else the code throws `'Invalid encrypted password format'`), decode
the IV and ciphertext from hex, and run AES-CBC decryption with PKCS#7 unpad.
The remaining error strings model the exceptions thrown by the Node crypto
primitives (`createDecipheriv` on a wrong-size IV, `decipher.final` on a
ragged or badly padded ciphertext); an undecodable UTF-8 plaintext is also
modelled as a failure. -/
def decryptInner (C : BlockCipher) (encryptedPassword : List Char) :
    Except String (List Char) :=
  let parts := splitChar ':' encryptedPassword
  if parts.length ≠ 2 then .error "Invalid encrypted password format"
  else
    let iv := jsHexDecode (parts.getD 0 [])
    let ct := jsHexDecode (parts.getD 1 [])
    if iv.length ≠ 16 then .error "Invalid initialization vector"
    else if ct.length % 16 ≠ 0 then .error "wrong final block length"
    else
      match pkcs7Unpad ((cbcDec C.dec iv (toBlocks ct)).flatten) with
      | none => .error "bad decrypt"
      | some pt =>
        match utf8Decode pt with
        | none => .error "invalid utf8"
        | some s => .ok s

/-- `decrypt(encryptedPassword)`: the whole body runs inside `try { ... }
catch (error) { console.error(...); throw new Error('Failed to decrypt
password') }`, so every failure — malformed format included — reaches the
caller as the same `'Failed to decrypt password'` error; the distinct inner
message is only logged. -/
def decrypt (C : BlockCipher) (encryptedPassword : List Char) :
    Except String (List Char) :=
  match decryptInner C encryptedPassword with
  | .ok s => .ok s
  | .error _ => .error "Failed to decrypt password"

/-- `hashPassword`: SHA-256 hex digest of the UTF-8 password bytes. -/
def hashPassword (password : List Char) : List Char :=
  hexEncode (sha256 (utf8Encode password))

/-- `verifyPassword`: recompute and compare. -/
def verifyPassword (password hash : List Char) : Bool :=
  decide (hashPassword password = hash)

/-- The character pool of `generateSecurePassword`, assembled in source order
(lowercase, uppercase, numbers, symbols) from the enabled classes. -/
def pwCharset (includeUppercase includeLowercase includeNumbers includeSymbols : Bool) :
    List Char :=
  (if includeLowercase then "abcdefghijklmnopqrstuvwxyz".data else [])
    ++ (if includeUppercase then "ABCDEFGHIJKLMNOPQRSTUVWXYZ".data else [])
    ++ (if includeNumbers then "0123456789".data else [])
    ++ (if includeSymbols then "!@#$%^&*()_+-=[]{}|;:,.<>?".data else [])

/-- `String.prototype.charAt`: one-character string, or the empty string when
the index is out of range (as happens on every draw from an empty charset). -/
def jsCharAt (l : List Char) (i : Nat) : List Char :=
  if h : i < l.length then [l.get ⟨i, h⟩] else []

/-- `generateSecurePassword(length, options)`: `length` draws of
`charset.charAt(Math.floor(Math.random() * charset.length))`, concatenated.
`rnd i` is the already-floored value of draw `i`; `Math.random() ∈ [0, 1)`
guarantees `rnd i < charset.length` whenever the charset is nonempty, and
`rnd i = 0` when it is empty.  (Source defaults: `length = 12`, all four
classes enabled.) -/
def generateSecurePassword (len : Nat)
    (includeUppercase includeLowercase includeNumbers includeSymbols : Bool)
    (rnd : Nat → Nat) : List Char :=
  (List.range len).flatMap (fun i =>
    jsCharAt (pwCharset includeUppercase includeLowercase includeNumbers includeSymbols)
      (rnd i))

/-- `createSecureToken(data, expiryMinutes = 60)`: base64 of the JSON payload
`{data, timestamp: Date.now(), expiry: Date.now() + expiryMinutes*60*1000}`,
joined by `'.'` with the hex HMAC-SHA256 of the base64 text under the secret
key's UTF-8 bytes.  `now` stands for `Date.now()` at the call. -/
def createSecureToken (secretKey : List Char) (now : Int) (data : List Char)
    (expiryMinutes : Int) : List Char :=
  let token := b64Encode (utf8Encode (stringifyPayload
    ⟨data, now, now + expiryMinutes * 60 * 1000⟩))
  token ++ '.' :: hexEncode (hmacSha256 (utf8Encode secretKey) (utf8Encode token))

/-- `verifySecureToken(token)`: split on `'.'` (exactly two parts or `null`),
recompute and compare the HMAC signature, then
`JSON.parse(Buffer.from(payload, 'base64').toString())` — the lenient base64
decode and the lossy UTF-8 conversion cannot fail, a `JSON.parse` throw is
caught (`null`), and so is the `TypeError` of reading `.expiry` off a parsed
JSON `null`; the token is rejected when `Date.now() > decoded.expiry` (with
JavaScript's coercing comparison) and the parsed value is returned otherwise.
`now` stands for `Date.now()` at the call. -/
def verifySecureToken (secretKey : List Char) (now : Int) (token : List Char) :
    Option JsonV :=
  let parts := splitChar '.' token
  if parts.length ≠ 2 then none
  else
    let payload := parts.getD 0 []
    let signature := parts.getD 1 []
    if signature ≠ hexEncode (hmacSha256 (utf8Encode secretKey) (utf8Encode payload))
    then none
    else
      match jsonParse (bufToString (b64Decode payload)) with
      | none => none
      | some JsonV.jnull => none
      | some v => if jsNowGt now (jsGetExpiry v) then none else some v

theorem dot_not_mem_hexEncode {bs : List Nat} (hbs : ∀ b ∈ bs, b < 256) :
    '.' ∉ hexEncode bs := by
  intro hmem
  rw [hexEncode, List.mem_flatMap] at hmem
  obtain ⟨b, hmem, hb⟩ := hmem
  obtain ⟨n, hn, hc⟩ := mem_byteToHex (hbs b hmem) hb
  exact hexDigit_ne_dot n hn hc.symm

theorem dot_not_mem_b64Encode {bs : List Nat} : '.' ∉ b64Encode bs := by
  intro hmem
  exact mem_b64Encode_ne_dot hmem rfl

/-- The central token round trip: verifying a freshly created token yields
the `JSON.parse` image of its payload unless the expiry test `now > expiry`
rejects it. -/
theorem verifySecureToken_createSecureToken (secretKey : List Char) (now : Int)
    (data : List Char) (ttl : Int) :
    verifySecureToken secretKey now (createSecureToken secretKey now data ttl)
      = if now > now + ttl * 60 * 1000 then none
        else some (canonicalPayloadJson data now (now + ttl * 60 * 1000)) := by
  rw [createSecureToken, verifySecureToken]
  have hsplit : splitChar '.'
      (b64Encode (utf8Encode (stringifyPayload ⟨data, now, now + ttl * 60 * 1000⟩))
        ++ '.' :: hexEncode (hmacSha256 (utf8Encode secretKey)
          (utf8Encode (b64Encode (utf8Encode (stringifyPayload
            ⟨data, now, now + ttl * 60 * 1000⟩))))))
      = [b64Encode (utf8Encode (stringifyPayload ⟨data, now, now + ttl * 60 * 1000⟩)),
         hexEncode (hmacSha256 (utf8Encode secretKey)
           (utf8Encode (b64Encode (utf8Encode (stringifyPayload
             ⟨data, now, now + ttl * 60 * 1000⟩)))))] := by
    rw [splitChar_append_sep dot_not_mem_b64Encode,
      splitChar_no_sep (dot_not_mem_hexEncode (hmacSha256_bytes_lt _ _))]
  rw [hsplit]
  simp only [List.getD_cons_zero, List.getD_cons_succ]
  rw [if_neg (by simp), if_neg (by simp)]
  rw [b64Decode_b64Encode (utf8Encode_bytes_lt)]
  rw [bufToString_utf8Encode]
  rw [jsonParse_stringify]
  try simp only []
  rw [canonicalPayloadJson]
  try simp only []
  have hexp : jsGetExpiry (JsonV.jobj [("data".data, JsonV.jstr data),
      ("timestamp".data, JsonV.jnum (now : Rat)),
      ("expiry".data, JsonV.jnum ((now + ttl * 60 * 1000 : Int) : Rat))])
      = some (JsonV.jnum ((now + ttl * 60 * 1000 : Int) : Rat)) := by rfl
  rw [hexp]
  have hb : jsNowGt now (some (JsonV.jnum ((now + ttl * 60 * 1000 : Int) : Rat)))
      = decide (now > now + ttl * 60 * 1000) := by
    rw [jsNowGt]
    try simp only []
    simp only [jsToNumber]
    by_cases hgt : now > now + ttl * 60 * 1000
    · rw [decide_eq_true
        (by exact_mod_cast hgt :
          ((now : Int) : Rat) > ((now + ttl * 60 * 1000 : Int) : Rat)),
        decide_eq_true hgt]
    · rw [decide_eq_false
        (by exact_mod_cast hgt :
          ¬ ((now : Int) : Rat) > ((now + ttl * 60 * 1000 : Int) : Rat)),
        decide_eq_false hgt]
  rw [hb]
  by_cases hgt : now > now + ttl * 60 * 1000
  · rw [decide_eq_true hgt, if_pos rfl, if_pos hgt]
  · rw [decide_eq_false hgt, if_neg (by simp), if_neg hgt]

theorem toBlocksLoop_mem_mem : ∀ fuel (l : List Nat) b, b ∈ toBlocksLoop fuel l →
    ∀ x ∈ b, x ∈ l := by
  intro fuel
  induction fuel with
  | zero =>
    intro l b hb
    match l with
    | [] => simp [toBlocksLoop] at hb
    | c :: l => simp [toBlocksLoop] at hb
  | succ f ih =>
    intro l b hb x hx
    match l with
    | [] => simp [toBlocksLoop] at hb
    | c :: l0 =>
      rw [toBlocksLoop, List.mem_cons] at hb
      rcases hb with hb | hb
      · exact List.mem_of_mem_take (hb ▸ hx)
      · exact List.mem_of_mem_drop (ih _ b hb x hx)

theorem cbcEnc_blocks_wf (C : BlockCipher) :
    ∀ (blocks : List (List Nat)) (prev : List Nat), prev.length = 16 →
      (∀ x ∈ prev, x < 256) →
      (∀ b ∈ blocks, b.length = 16 ∧ ∀ x ∈ b, x < 256) →
      ∀ cb ∈ cbcEnc C.enc prev blocks, cb.length = 16 ∧ ∀ x ∈ cb, x < 256 := by
  intro blocks
  induction blocks with
  | nil => intro prev _ _ _ cb hcb; simp [cbcEnc] at hcb
  | cons b bs ih =>
    intro prev hprev hprevlt hblocks cb hcb
    obtain ⟨hb16, hblt⟩ := hblocks b (by simp)
    have hxlen : (xorBytes prev b).length = 16 := by
      rw [xorBytes_length, hprev, hb16]
      rfl
    have hxlt : ∀ x ∈ xorBytes prev b, x < 256 := xorBytes_lt hprevlt hblt
    rw [show cbcEnc C.enc prev (b :: bs)
        = C.enc (xorBytes prev b) :: cbcEnc C.enc (C.enc (xorBytes prev b)) bs from rfl,
      List.mem_cons] at hcb
    rcases hcb with hcb | hcb
    · exact hcb ▸ ⟨C.enc_length _ hxlen, C.enc_lt _ hxlen hxlt⟩
    · exact ih (C.enc (xorBytes prev b)) (C.enc_length _ hxlen) (C.enc_lt _ hxlen hxlt)
        (fun v hv => hblocks v (by simp [hv])) cb hcb

theorem flatten_len16_mod {bs : List (List Nat)} (h : ∀ b ∈ bs, b.length = 16) :
    bs.flatten.length % 16 = 0 := by
  induction bs with
  | nil => rfl
  | cons b bs ih =>
    rw [List.flatten_cons, List.length_append, h b (by simp)]
    have := ih (fun v hv => h v (by simp [hv]))
    omega

/-- The `decrypt ∘ encrypt` round trip at the pre-`catch` level. -/
theorem decryptInner_encrypt (C : BlockCipher) (iv : List Nat) (password : List Char)
    (hiv : iv.length = 16) (hivlt : ∀ x ∈ iv, x < 256) :
    decryptInner C (encrypt C iv password) = .ok password := by
  have hpadmod := pkcs7Pad_length_mod (utf8Encode password)
  have hpadlt := pkcs7Pad_lt (@utf8Encode_bytes_lt password)
  have hblockswf : ∀ b ∈ toBlocks (pkcs7Pad (utf8Encode password)),
      b.length = 16 ∧ ∀ x ∈ b, x < 256 := by
    intro b hb
    exact ⟨toBlocksLoop_len16 _ _ le_rfl hpadmod b hb,
      fun x hx => hpadlt x (toBlocksLoop_mem_mem _ _ b hb x hx)⟩
  have hctwf := cbcEnc_blocks_wf C (toBlocks (pkcs7Pad (utf8Encode password))) iv
    hiv hivlt hblockswf
  have hctlt : ∀ x ∈ (cbcEnc C.enc iv (toBlocks (pkcs7Pad (utf8Encode password)))).flatten,
      x < 256 := by
    intro x hx
    rw [List.mem_flatten] at hx
    obtain ⟨cb, hcb, hx⟩ := hx
    exact (hctwf cb hcb).2 x hx
  have hctmod : (cbcEnc C.enc iv (toBlocks (pkcs7Pad (utf8Encode password)))).flatten.length
      % 16 = 0 := flatten_len16_mod (fun cb hcb => (hctwf cb hcb).1)
  rw [decryptInner, encrypt]
  have hsplit : splitChar ':' (hexEncode iv ++ ':' :: hexEncode
      (cbcEnc C.enc iv (toBlocks (pkcs7Pad (utf8Encode password)))).flatten)
      = [hexEncode iv, hexEncode
          (cbcEnc C.enc iv (toBlocks (pkcs7Pad (utf8Encode password)))).flatten] := by
    rw [splitChar_append_sep (colon_not_mem_hexEncode hivlt),
      splitChar_no_sep (colon_not_mem_hexEncode hctlt)]
  rw [hsplit]
  simp only [List.getD_cons_zero, List.getD_cons_succ]
  rw [if_neg (by simp)]
  rw [jsHexDecode_hexEncode hivlt, jsHexDecode_hexEncode hctlt]
  rw [if_neg (by rw [hiv]; simp), if_neg (by rw [hctmod]; simp)]
  rw [show toBlocks (cbcEnc C.enc iv (toBlocks (pkcs7Pad (utf8Encode password)))).flatten
      = cbcEnc C.enc iv (toBlocks (pkcs7Pad (utf8Encode password))) from
    toBlocks_flatten _ (fun cb hcb => (hctwf cb hcb).1) _ le_rfl]
  rw [cbcDec_cbcEnc C _ iv hiv hivlt hblockswf]
  rw [show (toBlocks (pkcs7Pad (utf8Encode password))).flatten
      = pkcs7Pad (utf8Encode password) from toBlocksLoop_flatten _ _ le_rfl]
  rw [pkcs7Unpad_pkcs7Pad]
  try simp only []
  rw [utf8Decode_utf8Encode]

/-- The `decrypt ∘ encrypt` round trip as the caller sees it. -/
theorem decrypt_encrypt (C : BlockCipher) (iv : List Nat) (password : List Char)
    (hiv : iv.length = 16) (hivlt : ∀ x ∈ iv, x < 256) :
    decrypt C (encrypt C iv password) = .ok password := by
  rw [decrypt, decryptInner_encrypt C iv password hiv hivlt]

/-! ## `PasswordEncryptionHelper.encryptSensitiveFields` / `decryptSensitiveFields`
(`utils/passwordEncryption.js`)

JSON-shaped data is modelled by `JSValue` (the walkers only ever see data that
survived `JSON.parse(JSON.stringify(data))`, the deep clone both walkers take
first — on such values the clone is the identity, so it is not represented).
The cipher calls `this.encryption.encrypt` / `.decrypt` are the walkers' only
effects and are passed in as functions (`df` returns `Except` to model a
decryption throw). -/

mutual
inductive JSValue where
  | str (s : List Char)
  | num (n : Int)
  | jbool (b : Bool)
  | null
  | arr (xs : JSArr)
  | obj (fs : JSFields)

inductive JSArr where
  | nil
  | cons (v : JSValue) (tl : JSArr)

inductive JSFields where
  | nil
  | cons (k : List Char) (v : JSValue) (tl : JSFields)
end

/-- `const sensitiveFields = ['password', 'apiKey', 'token', 'secret', 'key']`
— the same literal appears in both `encryptSensitiveFields` and
`decryptSensitiveFields`. -/
def sensitiveFields : List (List Char) :=
  ["password".data, "apiKey".data, "token".data, "secret".data, "key".data]

/-- `sensitiveFields.includes(key.toLowerCase())`. -/
def isSensitiveKey (k : List Char) : Bool := decide (jsToLower k ∈ sensitiveFields)

mutual
/-- `encryptObject` of `encryptSensitiveFields`: arrays map, objects walk
their fields, primitives pass through. -/
def encVal (ef : List Char → List Char) (v : JSValue) : JSValue :=
  match v with
  | .str s => .str s
  | .num n => .num n
  | .jbool b => .jbool b
  | .null => .null
  | .arr xs => .arr (encArr ef xs)
  | .obj fs => .obj (encFields ef fs)
termination_by structural v

def encArr (ef : List Char → List Char) (xs : JSArr) : JSArr :=
  match xs with
  | .nil => .nil
  | .cons v tl => .cons (encVal ef v) (encArr ef tl)
termination_by structural xs

def encFields (ef : List Char → List Char) (fs : JSFields) : JSFields :=
  match fs with
  | .nil => .nil
  | .cons k v tl => .cons k (encFieldVal ef k v) (encFields ef tl)
termination_by structural fs

/-- One object entry: a string value under a sensitive key is encrypted,
everything else recurses (`encryptObject(value)`, expanded by value shape —
the string case of that call is the unchanged pass-through). -/
def encFieldVal (ef : List Char → List Char) (k : List Char) (v : JSValue) : JSValue :=
  match v with
  | .str s => if isSensitiveKey k then .str (ef s) else .str s
  | .num n => .num n
  | .jbool b => .jbool b
  | .null => .null
  | .arr xs => .arr (encArr ef xs)
  | .obj fs => .obj (encFields ef fs)
termination_by structural v
end

mutual
/-- `decryptObject` of `decryptSensitiveFields`. -/
def decVal (df : List Char → Except String (List Char)) (v : JSValue) : JSValue :=
  match v with
  | .str s => .str s
  | .num n => .num n
  | .jbool b => .jbool b
  | .null => .null
  | .arr xs => .arr (decArr df xs)
  | .obj fs => .obj (decFields df fs)
termination_by structural v

def decArr (df : List Char → Except String (List Char)) (xs : JSArr) : JSArr :=
  match xs with
  | .nil => .nil
  | .cons v tl => .cons (decVal df v) (decArr df tl)
termination_by structural xs

def decFields (df : List Char → Except String (List Char)) (fs : JSFields) : JSFields :=
  match fs with
  | .nil => .nil
  | .cons k v tl => .cons k (decFieldVal df k v) (decFields df tl)
termination_by structural fs

/-- One object entry on the decrypt walk: a failing decrypt of a flagged value
is caught and the original value kept (`catch { result[key] = value }`); a
non-string value recurses via `decryptObject(value)`, expanded by value
shape. -/
def decFieldVal (df : List Char → Except String (List Char)) (k : List Char)
    (v : JSValue) : JSValue :=
  match v with
  | .str s =>
    if isSensitiveKey k then
      match df s with
      | .ok d => .str d
      | .error _ => .str s
    else .str s
  | .num n => .num n
  | .jbool b => .jbool b
  | .null => .null
  | .arr xs => .arr (decArr df xs)
  | .obj fs => .obj (decFields df fs)
termination_by structural v
end

/-- `encryptSensitiveFields(data)`. -/
def encryptSensitiveFields (ef : List Char → List Char) (data : JSValue) : JSValue :=
  encVal ef data

/-- `decryptSensitiveFields(data)`. -/
def decryptSensitiveFields (df : List Char → Except String (List Char))
    (data : JSValue) : JSValue :=
  decVal df data

/-! ## `TestDataManager` (`utils/testDataManager.js`)

State: the in-memory registry `generatedData` (a JS `Map` from type label to an
array of entities; modelled as an insertion-ordered association list) and the
`cleanupHooks` array.  The file-system side (`dataDir`, `ensureDataDirectory`,
config loading, `saveTestData`/`loadTestData`) is external collaborator I/O and
is not part of the registry model; of the loaded config only the fields the
generators read are carried.

A cleanup hook is an async callable affecting an external world `σ`; it is
modelled as `σ → σ × Bool`, the `Bool` recording whether it completed (`true`)
or threw (`false`).  The database/api/file sub-cleanups are stubs whose world
effects are passed in as collaborator functions.

Faker calls (`faker.*`) are impure draws from an external generator; a `Faker`
record supplies the value of each draw a generator makes. -/

structure UserProfile where
  phone : List Char
  street : List Char
  city : List Char
  state : List Char
  zipCode : List Char
  country : List Char
  dateOfBirth : List Char
  avatar : List Char

structure UserPrefs where
  theme : List Char
  language : List Char
  notifEmail : Bool
  notifSms : Bool
  notifPush : Bool

structure User where
  id : List Char
  email : List Char
  username : List Char
  firstName : List Char
  lastName : List Char
  role : List Char
  isActive : Bool
  createdAt : List Char
  lastLogin : List Char
  password : List Char
  plainPassword : List Char
  profile : Option UserProfile
  preferences : Option UserPrefs

structure Review where
  id : List Char
  userId : List Char
  rating : Nat
  comment : List Char
  createdAt : List Char

structure Product where
  id : List Char
  name : List Char
  description : List Char
  category : List Char
  price : Rat
  sku : List Char
  stock : Nat
  isActive : Bool
  createdAt : List Char
  updatedAt : List Char
  images : Option (List (List Char))
  reviews : Option (List Review)

structure Address where
  street : List Char
  city : List Char
  state : List Char
  zipCode : List Char
  country : List Char

structure OrderItem where
  id : List Char
  productId : List Char
  quantity : Nat
  price : Rat
  total : Rat

structure Order where
  id : List Char
  userId : List Char
  orderNumber : List Char
  status : List Char
  totalAmount : Rat
  currency : List Char
  createdAt : List Char
  updatedAt : List Char
  shippingAddress : Address
  items : Option (List OrderItem)

/-- The payload `generateDataForEndpoint` returns: a nested entity for
`/users`, `/products`, `/orders` endpoints, otherwise a generic record. -/
inductive EndpointData where
  | user (u : User)
  | product (p : Product)
  | order (o : Order)
  | generic (id name value timestamp : List Char)

structure ApiData where
  endpoint : List Char
  method : List Char
  headers : List (List Char × List Char)
  data : EndpointData

/-- An entity as stored in the registry. -/
inductive GenEntity where
  | user (u : User)
  | product (p : Product)
  | order (o : Order)
  | api (a : ApiData)

/-- One value for every faker draw a generator performs. -/
structure Faker where
  uuid : Nat → List Char
  email : List Char → List Char
  userName : List Char
  firstName : List Char
  lastName : List Char
  password : List Char
  pastDate : List Char
  recentDate : List Char
  birthDate : List Char
  phone : List Char
  street : List Char
  city : List Char
  state : List Char
  zipCode : List Char
  country : List Char
  avatar : List Char
  pick : List (List Char) → List Char
  theme : List Char
  language : List Char
  boolVal : Nat → Bool
  productName : List Char
  productDescription : List Char
  priceFloat : Rat → Rat → Rat
  alphaNum : Nat → List Char
  intIn : Nat → Nat → Nat
  imageUrl : Nat → List Char
  reviews : List Review
  orderNumber : List Char
  itemId : Nat → List Char
  itemUuid : Nat → List Char
  itemPick : Nat → List (List Char) → List Char
  itemQty : Nat → Nat
  itemPrice : Nat → Rat
  word : List Char
  sentence : List Char
  nowIso : List Char

/-- The configuration fields the generators read
(`config.users.domains`, `config.products.categories`,
`config.products.priceRange`). -/
structure TDMConfig where
  userDomains : List (List Char)
  productCategories : List (List Char)
  priceMin : Rat
  priceMax : Rat

/-- The mutable state of a `TestDataManager` instance, over an external
cleanup world `σ`. -/
structure TestDataManager (σ : Type) where
  generatedData : List (List Char × List GenEntity)
  cleanupHooks : List (σ → σ × Bool)
  cleanupStrategy : List Char
  config : TDMConfig

/-- `Map` update of `storeGeneratedData`: create the type's array on first use,
then push. -/
def storeAssoc (ty : List Char) (d : GenEntity) :
    List (List Char × List GenEntity) → List (List Char × List GenEntity)
  | [] => [(ty, [d])]
  | (t, ds) :: rest =>
    if t = ty then (t, ds ++ [d]) :: rest else (t, ds) :: storeAssoc ty d rest

/-- `storeGeneratedData(type, data)`. -/
def storeGeneratedData {σ} (ty : List Char) (d : GenEntity) (m : TestDataManager σ) :
    TestDataManager σ :=
  { m with generatedData := storeAssoc ty d m.generatedData }

/-- `getGeneratedData(type)`: the type's array, or `[]`. -/
def lookupAssoc (ty : List Char) : List (List Char × List GenEntity) → List GenEntity
  | [] => []
  | (t, ds) :: rest => if t = ty then ds else lookupAssoc ty rest

def getGeneratedData {σ} (ty : List Char) (m : TestDataManager σ) : List GenEntity :=
  lookupAssoc ty m.generatedData

/-- `clearGeneratedData(type = null)`: delete one type's entry, or clear the
whole `Map`. -/
def clearGeneratedData {σ} (ty : Option (List Char)) (m : TestDataManager σ) :
    TestDataManager σ :=
  match ty with
  | none => { m with generatedData := [] }
  | some t => { m with generatedData := m.generatedData.filter (fun p => decide (p.1 ≠ t)) }

/-- `registerCleanupHook(hook)`: append, no dedup, no priority. -/
def registerCleanupHook {σ} (hook : σ → σ × Bool) (m : TestDataManager σ) :
    TestDataManager σ :=
  { m with cleanupHooks := m.cleanupHooks ++ [hook] }

/-- `executeCleanupHooks()`: run every hook in registration order; a throwing
hook is caught (and logged), so the iteration always continues with the next
hook. -/
def executeCleanupHooks {σ} (hooks : List (σ → σ × Bool)) (s : σ) : σ :=
  hooks.foldl (fun w h => (h w).1) s

/-- The `switch (cleanupStrategy)` dispatch of `cleanup` over the stubbed
database/api/file collaborators (an unknown strategy matches no case and does
nothing). -/
def cleanupDispatch {σ} (dbC apiC fileC : σ → σ) (strat : List Char) (s : σ) : σ :=
  if strat = "database".data then dbC s
  else if strat = "api".data then apiC s
  else if strat = "file".data then fileC s
  else if strat = "all".data then fileC (apiC (dbC s))
  else s

/-- `cleanup(strategy = 'auto')`: resolve `'auto'` to the configured strategy,
dispatch the sub-cleanups, run the hooks, and clear the registry.  The hook
list itself is not cleared. -/
def cleanup {σ} (dbC apiC fileC : σ → σ) (strategy : List Char)
    (m : TestDataManager σ) (s : σ) : TestDataManager σ × σ :=
  let strat := if strategy = "auto".data then m.cleanupStrategy else strategy
  let s1 := cleanupDispatch dbC apiC fileC strat s
  let s2 := executeCleanupHooks m.cleanupHooks s1
  (clearGeneratedData none m, s2)

/-- `getDataStatistics()` (the `environment`/`dataDirectory` echo fields are
external configuration and not modelled). -/
structure DataStatistics where
  totalGenerated : Nat
  byType : List (List Char × Nat)

def getDataStatistics {σ} (m : TestDataManager σ) : DataStatistics :=
  ⟨(m.generatedData.map (fun p => p.2.length)).sum,
   m.generatedData.map (fun p => (p.1, p.2.length))⟩

/-- `generateUser(options)` (defaults: `role = 'user'`, `domain = null`,
`encryptedPassword = false`, `includeProfile = true`,
`includePreferences = false`).  `ef` is `this.encryption.encrypt` applied on
the `encryptedPassword: true` route.  Builds the user, stores it under
`'user'`, and returns it. -/
def generateUser {σ} (fk : Faker) (role : List Char) (domain : Option (List Char))
    (encryptedPassword includeProfile includePreferences : Bool)
    (ef : List Char → List Char) (m : TestDataManager σ) :
    User × TestDataManager σ :=
  let password := fk.password
  let user : User :=
    { id := fk.uuid 0
      email := fk.email (match domain with
        | some d => d
        | none => fk.pick m.config.userDomains)
      username := fk.userName
      firstName := fk.firstName
      lastName := fk.lastName
      role := role
      isActive := true
      createdAt := fk.pastDate
      lastLogin := fk.recentDate
      password := if encryptedPassword then ef password else password
      plainPassword := password
      profile := if includeProfile then
          some ⟨fk.phone, fk.street, fk.city, fk.state, fk.zipCode, fk.country,
            fk.birthDate, fk.avatar⟩
        else none
      preferences := if includePreferences then
          some ⟨fk.theme, fk.language, fk.boolVal 0, fk.boolVal 1, fk.boolVal 2⟩
        else none }
  (user, storeGeneratedData "user".data (.user user) m)

/-- `generateProduct(options)` (defaults: `category = null`,
`priceRange = null`, `includeImages = true`, `includeReviews = false`). -/
def generateProduct {σ} (fk : Faker) (category : Option (List Char))
    (priceRange : Option (Rat × Rat)) (includeImages includeReviews : Bool)
    (m : TestDataManager σ) : Product × TestDataManager σ :=
  let product : Product :=
    { id := fk.uuid 0
      name := fk.productName
      description := fk.productDescription
      category := match category with
        | some c => c
        | none => fk.pick m.config.productCategories
      price := fk.priceFloat
        (match priceRange with | some pr => pr.1 | none => m.config.priceMin)
        (match priceRange with | some pr => pr.2 | none => m.config.priceMax)
      sku := fk.alphaNum 10
      stock := fk.intIn 0 1000
      isActive := true
      createdAt := fk.pastDate
      updatedAt := fk.recentDate
      images := if includeImages then some [fk.imageUrl 0, fk.imageUrl 1, fk.imageUrl 2]
        else none
      reviews := if includeReviews then some fk.reviews else none }
  (product, storeGeneratedData "product".data (.product product) m)

/-- The item loop of `generateOrder`: item `i` draws its own id, product id
(an element of `productIds` when given, else a fresh UUID), quantity and
price; `total = quantity * price`. -/
def buildOrderItems (fk : Faker) (productIds : Option (List (List Char))) :
    Nat → Nat → List OrderItem
  | _, 0 => []
  | i, n + 1 =>
    { id := fk.itemId i
      productId := match productIds with
        | some ids => fk.itemPick i ids
        | none => fk.itemUuid i
      quantity := fk.itemQty i
      price := fk.itemPrice i
      total := fk.itemQty i * fk.itemPrice i } :: buildOrderItems fk productIds (i + 1) n

/-- `generateOrder(options)` (defaults: `userId = null`, `productIds = null`,
`status = 'pending'`, `includeItems = true`).  `totalAmount` accumulates
`quantity * price` over the generated items (0 when `includeItems` is
false). -/
def generateOrder {σ} (fk : Faker) (userId : Option (List Char))
    (productIds : Option (List (List Char))) (status : List Char)
    (includeItems : Bool) (m : TestDataManager σ) : Order × TestDataManager σ :=
  let itemCount := fk.intIn 1 5
  let items := buildOrderItems fk productIds 0 itemCount
  let order : Order :=
    { id := fk.uuid 0
      userId := match userId with
        | some u => u
        | none => fk.uuid 1
      orderNumber := fk.alphaNum 8
      status := status
      totalAmount := if includeItems then (items.map (fun it => it.total)).sum else 0
      currency := "USD".data
      createdAt := fk.pastDate
      updatedAt := fk.recentDate
      shippingAddress := ⟨fk.street, fk.city, fk.state, fk.zipCode, fk.country⟩
      items := if includeItems then some items else none }
  (order, storeGeneratedData "order".data (.order order) m)

/-- `generateDataForEndpoint(endpoint)`: substring-dispatch to a nested
generator (whose own `storeGeneratedData` call mutates the registry), or a
generic record with no store. -/
def generateDataForEndpoint {σ} (fk : Faker) (endpoint : List Char)
    (ef : List Char → List Char) (m : TestDataManager σ) :
    EndpointData × TestDataManager σ :=
  if jsIncludes "/users".data endpoint then
    let r := generateUser fk "user".data none false true false ef m
    (.user r.1, r.2)
  else if jsIncludes "/products".data endpoint then
    let r := generateProduct fk none none true false m
    (.product r.1, r.2)
  else if jsIncludes "/orders".data endpoint then
    let r := generateOrder fk none none "pending".data true m
    (.order r.1, r.2)
  else
    ((.generic (fk.uuid 0) fk.word fk.sentence fk.nowIso), m)

/-- `generateApiData(endpoint, options)` (defaults: `method = 'POST'`,
`includeHeaders = true`, `includeAuth = false`).  The `data` field is produced
by `generateDataForEndpoint` (possibly storing a nested entity first); the api
record itself is then stored under `'api'`. -/
def generateApiData {σ} (fk : Faker) (endpoint method : List Char)
    (includeHeaders includeAuth : Bool) (ef : List Char → List Char)
    (m : TestDataManager σ) : ApiData × TestDataManager σ :=
  let r := generateDataForEndpoint fk endpoint ef m
  let headers0 : List (List Char × List Char) :=
    if includeHeaders then
      [("Content-Type".data, "application/json".data),
       ("Accept".data, "application/json".data),
       ("User-Agent".data, "Test-Automation/1.0".data)]
    else []
  let headers := if includeAuth then
      headers0 ++ [("Authorization".data, "Bearer ".data ++ fk.alphaNum 32)]
    else headers0
  let apiData : ApiData := ⟨endpoint, method, headers, r.1⟩
  (apiData, storeGeneratedData "api".data (.api apiData) r.2)

/-- The nested-store dispatch of `generateDataForEndpoint`: which registry type
(if any) the nested generator call appends to, as a function of the endpoint's
substring tests. -/
def nestedTypeFor (endpoint : List Char) : Option (List Char) :=
  if jsIncludes "/users".data endpoint then some "user".data
  else if jsIncludes "/products".data endpoint then some "product".data
  else if jsIncludes "/orders".data endpoint then some "order".data
  else none

/-- A concrete faker oracle (every draw trivial) for evaluating the generators
on closed inputs. -/
def fk0 : Faker :=
  { uuid := fun _ => []
    email := fun _ => []
    userName := []
    firstName := []
    lastName := []
    password := []
    pastDate := []
    recentDate := []
    birthDate := []
    phone := []
    street := []
    city := []
    state := []
    zipCode := []
    country := []
    avatar := []
    pick := fun _ => []
    theme := []
    language := []
    boolVal := fun _ => false
    productName := []
    productDescription := []
    priceFloat := fun _ _ => 0
    alphaNum := fun _ => []
    intIn := fun _ _ => 0
    imageUrl := fun _ => []
    reviews := []
    orderNumber := []
    itemId := fun _ => []
    itemUuid := fun _ => []
    itemPick := fun _ _ => []
    itemQty := fun _ => 0
    itemPrice := fun _ => 0
    word := []
    sentence := []
    nowIso := [] }

/-- A fresh manager with an empty registry, no hooks, and trivial
configuration. -/
def mgr0 : TestDataManager Unit :=
  ⟨[], [], "none".data, ⟨[], [], 0, 0⟩⟩

theorem lookupAssoc_storeAssoc_same (ty : List Char) (d : GenEntity) :
    ∀ l, lookupAssoc ty (storeAssoc ty d l) = lookupAssoc ty l ++ [d] := by
  intro l
  induction l with
  | nil => simp [storeAssoc, lookupAssoc]
  | cons p rest ih =>
    match p with
    | (t, ds) =>
      by_cases ht : t = ty
      · rw [storeAssoc, if_pos ht, lookupAssoc, if_pos ht, lookupAssoc, if_pos ht]
      · rw [storeAssoc, if_neg ht, lookupAssoc, if_neg ht, lookupAssoc, if_neg ht, ih]

theorem lookupAssoc_storeAssoc_other {ty ty' : List Char} (h : ty' ≠ ty)
    (d : GenEntity) : ∀ l, lookupAssoc ty' (storeAssoc ty d l) = lookupAssoc ty' l := by
  intro l
  induction l with
  | nil =>
    have hne : ¬ ty = ty' := fun hc => h hc.symm
    simp only [storeAssoc, lookupAssoc, if_neg hne]
  | cons p rest ih =>
    match p with
    | (t, ds) =>
      by_cases ht : t = ty
      · have ht' : ¬ t = ty' := fun hc => h (hc ▸ ht ▸ rfl)
        rw [storeAssoc, if_pos ht, lookupAssoc, if_neg ht', lookupAssoc, if_neg ht']
      · rw [storeAssoc, if_neg ht, lookupAssoc, lookupAssoc, ih]

theorem getGeneratedData_store_same {σ} (ty : List Char) (d : GenEntity)
    (m : TestDataManager σ) :
    getGeneratedData ty (storeGeneratedData ty d m) = getGeneratedData ty m ++ [d] :=
  lookupAssoc_storeAssoc_same ty d m.generatedData

theorem getGeneratedData_store_other {σ} {ty ty' : List Char} (h : ty' ≠ ty)
    (d : GenEntity) (m : TestDataManager σ) :
    getGeneratedData ty' (storeGeneratedData ty d m) = getGeneratedData ty' m :=
  lookupAssoc_storeAssoc_other h d m.generatedData

theorem generateDataForEndpoint_registry {σ} (fk : Faker) (endpoint : List Char)
    (ef : List Char → List Char) (m : TestDataManager σ) :
    (nestedTypeFor endpoint = none → (generateDataForEndpoint fk endpoint ef m).2 = m)
    ∧ ∀ nty, nestedTypeFor endpoint = some nty →
        ((getGeneratedData nty (generateDataForEndpoint fk endpoint ef m).2).length
            = (getGeneratedData nty m).length + 1
          ∧ ∀ ty, ty ≠ nty →
              getGeneratedData ty (generateDataForEndpoint fk endpoint ef m).2
                = getGeneratedData ty m) := by
  by_cases h1 : jsIncludes "/users".data endpoint = true
  · constructor
    · intro hn
      rw [nestedTypeFor, if_pos h1] at hn
      exact absurd hn (by simp)
    · intro nty hn
      rw [nestedTypeFor, if_pos h1, Option.some_inj] at hn
      subst hn
      have hr : (generateDataForEndpoint fk endpoint ef m).2
          = storeGeneratedData "user".data
              (.user (generateUser fk "user".data none false true false ef m).1) m := by
        rw [generateDataForEndpoint, if_pos h1]
        rfl
      refine ⟨?_, fun ty hty => ?_⟩
      · rw [hr, getGeneratedData_store_same, List.length_append]
        rfl
      · rw [hr, getGeneratedData_store_other hty]
  · by_cases h2 : jsIncludes "/products".data endpoint = true
    · constructor
      · intro hn
        rw [nestedTypeFor, if_neg h1, if_pos h2] at hn
        exact absurd hn (by simp)
      · intro nty hn
        rw [nestedTypeFor, if_neg h1, if_pos h2, Option.some_inj] at hn
        subst hn
        have hr : (generateDataForEndpoint fk endpoint ef m).2
            = storeGeneratedData "product".data
                (.product (generateProduct fk none none true false m).1) m := by
          rw [generateDataForEndpoint, if_neg h1, if_pos h2]
          rfl
        refine ⟨?_, fun ty hty => ?_⟩
        · rw [hr, getGeneratedData_store_same, List.length_append]
          rfl
        · rw [hr, getGeneratedData_store_other hty]
    · by_cases h3 : jsIncludes "/orders".data endpoint = true
      · constructor
        · intro hn
          rw [nestedTypeFor, if_neg h1, if_neg h2, if_pos h3] at hn
          exact absurd hn (by simp)
        · intro nty hn
          rw [nestedTypeFor, if_neg h1, if_neg h2, if_pos h3, Option.some_inj] at hn
          subst hn
          have hr : (generateDataForEndpoint fk endpoint ef m).2
              = storeGeneratedData "order".data
                  (.order (generateOrder fk none none "pending".data true m).1) m := by
            rw [generateDataForEndpoint, if_neg h1, if_neg h2, if_pos h3]
            rfl
          refine ⟨?_, fun ty hty => ?_⟩
          · rw [hr, getGeneratedData_store_same, List.length_append]
            rfl
          · rw [hr, getGeneratedData_store_other hty]
      · have hr : (generateDataForEndpoint fk endpoint ef m).2 = m := by
          rw [generateDataForEndpoint, if_neg h1, if_neg h2, if_neg h3]
        refine ⟨fun _ => hr, fun nty hn => ?_⟩
        rw [nestedTypeFor, if_neg h1, if_neg h2, if_neg h3] at hn
        exact absurd hn (by simp)

/-! ## Claim theorems -/

/-- C1: for every string (transported as its UTF-8 via `List Char`), decrypting
the result of encrypting it with the same cipher instance returns it:
`decrypt(encrypt(s)) == s`, where `encrypt` produces a fresh-IV AES-256-CBC
blob `hex(iv):hex(ciphertext)` and `decrypt` parses and inverts it under the
same key.  The IV is the fresh 16-byte `crypto.randomBytes(16)` draw of the
`encrypt` call. -/
theorem claim_C1_encrypt_decrypt_roundtrip (C : BlockCipher) (iv : List Nat)
    (s : List Char) (hiv : iv.length = 16) (hivlt : ∀ x ∈ iv, x < 256) :
    decrypt C (encrypt C iv s) = .ok s :=
  decrypt_encrypt C iv s hiv hivlt

theorem claim_C1_encrypt_decrypt_roundtrip_witness :
    (List.replicate 16 7).length = 16 ∧ (∀ x ∈ List.replicate 16 7, x < 256)
      ∧ decrypt idCipher (encrypt idCipher (List.replicate 16 7) "secret123".data)
        = .ok "secret123".data :=
  ⟨by decide, by decide,
    claim_C1_encrypt_decrypt_roundtrip idCipher (List.replicate 16 7) "secret123".data
      (by decide) (by decide)⟩

/-- C2 (code bug): the walkers' own `sensitiveFields` list names `'apiKey'`,
yet the membership test is applied to `key.toLowerCase()`, which can never
equal `'apiKey'`; consequently a string field named `apiKey` is left
untouched by `encryptSensitiveFields` and by `decryptSensitiveFields`, against
the claim (and the list's evident intent) that it is encrypted and decrypted
back. -/
theorem claim_C2_apiKey_never_matched :
    "apiKey".data ∈ sensitiveFields
    ∧ isSensitiveKey "apiKey".data = false
    ∧ encryptSensitiveFields (fun s => 'E' :: s)
        (.obj (.cons "apiKey".data (.str "k".data) .nil))
      = .obj (.cons "apiKey".data (.str "k".data) .nil)
    ∧ decryptSensitiveFields (fun _ => .ok "D".data)
        (.obj (.cons "apiKey".data (.str "k".data) .nil))
      = .obj (.cons "apiKey".data (.str "k".data) .nil) :=
  ⟨by decide, by decide, by rfl, by rfl⟩

/-- C5: on the decrypt walk, a sensitive-keyed string value whose decryption
throws is kept unchanged, the walk continues over the remaining fields, and no
exception escapes; moreover a plaintext value (no `':'`, hence not a valid
`iv:ciphertext` blob) always makes `decrypt` throw, so such a field comes back
unchanged. -/
theorem claim_C5_decrypt_walker_catches (C : BlockCipher) :
    (∀ (k v : List Char) (ps : JSFields) (e : String),
      isSensitiveKey k = true → decrypt C v = .error e →
      decryptSensitiveFields (decrypt C) (.obj (.cons k (.str v) ps))
        = .obj (.cons k (.str v) (decFields (decrypt C) ps)))
    ∧ (∀ s : List Char, ':' ∉ s → decrypt C s = .error "Failed to decrypt password") := by
  constructor
  · intro k v ps e hk hv
    show JSValue.obj (.cons k (decFieldVal (decrypt C) k (.str v))
      (decFields (decrypt C) ps)) = _
    rw [decFieldVal]
    simp only [hk, if_true, hv]
  · intro s hs
    rw [decrypt, decryptInner, splitChar_no_sep hs]
    simp only [List.length_cons, List.length_nil]
    rw [if_pos (by omega)]

theorem claim_C5_decrypt_walker_catches_witness :
    isSensitiveKey "password".data = true
    ∧ decrypt idCipher "plain".data = .error "Failed to decrypt password"
    ∧ decryptSensitiveFields (decrypt idCipher)
        (.obj (.cons "password".data (.str "plain".data)
          (.cons "role".data (.str "admin".data) .nil)))
      = .obj (.cons "password".data (.str "plain".data)
          (decFields (decrypt idCipher) (.cons "role".data (.str "admin".data) .nil))) :=
  ⟨by decide, (claim_C5_decrypt_walker_catches idCipher).2 "plain".data (by decide),
    (claim_C5_decrypt_walker_catches idCipher).1 "password".data "plain".data
      (.cons "role".data (.str "admin".data) .nil) "Failed to decrypt password"
      (by decide)
      ((claim_C5_decrypt_walker_catches idCipher).2 "plain".data (by decide))⟩

/-- C6 (counterexample): on a blob that does not split into two `':'` parts,
the error raised to `decrypt`'s caller carries the generic
`'Failed to decrypt password'` description, not the `'Invalid encrypted
password format'` description the claim attributes to the raised error — the
format message exists only in the internal error that the `catch` swallows and
logs. -/
theorem claim_C6_counterexample :
    decrypt idCipher "abc".data = .error "Failed to decrypt password"
    ∧ decryptInner idCipher "abc".data = .error "Invalid encrypted password format"
    ∧ "Failed to decrypt password" ≠ "Invalid encrypted password format" :=
  ⟨by rfl, by rfl, by decide⟩

/-- C6 (amended): `decrypt` raises an error to its immediate caller in both
failure modes, but with one and the same `'Failed to decrypt password'`
description; the two modes are distinguished only before the `catch`:
the inner computation fails with `'Invalid encrypted password format'` exactly
on inputs that do not split into two `':'` segments, every inner failure is
re-raised as the generic error, and inner successes pass through. -/
theorem claim_C6_amended_error_modes (C : BlockCipher) :
    (∀ s : List Char, (splitChar ':' s).length ≠ 2 →
      decryptInner C s = .error "Invalid encrypted password format"
      ∧ decrypt C s = .error "Failed to decrypt password")
    ∧ (∀ (s : List Char) (e : String), decryptInner C s = .error e →
        decrypt C s = .error "Failed to decrypt password")
    ∧ (∀ (s r : List Char), decryptInner C s = .ok r → decrypt C s = .ok r) := by
  refine ⟨fun s h => ⟨?_, ?_⟩, fun s e h => ?_, fun s r h => ?_⟩
  · rw [decryptInner, if_pos h]
  · rw [decrypt, decryptInner, if_pos h]
  · rw [decrypt, h]
  · rw [decrypt, h]

theorem claim_C6_amended_error_modes_witness :
    (splitChar ':' "abc".data).length ≠ 2
    ∧ decryptInner idCipher "abc".data = .error "Invalid encrypted password format"
    ∧ decrypt idCipher "abc".data = .error "Failed to decrypt password" :=
  ⟨by decide, ((claim_C6_amended_error_modes idCipher).1 "abc".data (by decide)).1,
    ((claim_C6_amended_error_modes idCipher).1 "abc".data (by decide)).2⟩

/-- C8: `prepareSecretKey` is a total deterministic function producing a valid
64-hex-character key for every input: a passphrase already matching
`^[0-9a-fA-F]{64}$` is returned verbatim, any other passphrase yields the
64-hex-char SHA-256 digest of its UTF-8 bytes.  (Determinism and freedom from
errors are intrinsic: the embedding is a total function.) -/
theorem claim_C8_prepareSecretKey_total (key : List Char) :
    (prepareSecretKey key).length = 64
    ∧ (∀ c ∈ prepareSecretKey key, isHexDigit c = true)
    ∧ (isHex64 key = true → prepareSecretKey key = key)
    ∧ (isHex64 key = false →
        prepareSecretKey key = hexEncode (sha256 (utf8Encode key))) := by
  by_cases h : isHex64 key = true
  · have hkey : key.length = 64 ∧ ∀ c ∈ key, isHexDigit c = true := by
      rw [isHex64, Bool.and_eq_true, decide_eq_true_eq, List.all_eq_true] at h
      exact ⟨h.1, h.2⟩
    refine ⟨?_, ?_, fun _ => by rw [prepareSecretKey, if_pos h], fun hf => absurd h (by simp [hf])⟩
    · rw [prepareSecretKey, if_pos h]
      exact hkey.1
    · rw [prepareSecretKey, if_pos h]
      exact hkey.2
  · have hlen : (hexEncode (sha256 (utf8Encode key))).length = 64 := by
      rw [hexEncode_length, sha256_length]
    refine ⟨?_, ?_, fun ht => absurd ht h, fun _ => by rw [prepareSecretKey, if_neg h]⟩
    · rw [prepareSecretKey, if_neg h]
      exact hlen
    · rw [prepareSecretKey, if_neg h]
      exact fun c hc => mem_hexEncode_isHexDigit (sha256_bytes_lt _) hc

theorem claim_C8_prepareSecretKey_total_witness :
    isHex64 (List.replicate 64 'a') = true
    ∧ prepareSecretKey (List.replicate 64 'a') = List.replicate 64 'a'
    ∧ isHex64 "my-passphrase".data = false
    ∧ prepareSecretKey "my-passphrase".data
        = hexEncode (sha256 (utf8Encode "my-passphrase".data))
    ∧ (prepareSecretKey "my-passphrase".data).length = 64 :=
  ⟨by decide,
    (claim_C8_prepareSecretKey_total (List.replicate 64 'a')).2.2.1 (by decide),
    by decide,
    (claim_C8_prepareSecretKey_total "my-passphrase".data).2.2.2 (by decide),
    (claim_C8_prepareSecretKey_total "my-passphrase".data).1⟩

theorem flatMap_length_one {α : Type} (f : α → List Char) (l : List α)
    (h : ∀ a ∈ l, (f a).length = 1) : (l.flatMap f).length = l.length := by
  induction l with
  | nil => rfl
  | cons a l ih =>
    rw [List.flatMap_cons, List.length_append, h a (by simp),
      ih (fun b hb => h b (by simp [hb])), List.length_cons]
    omega

theorem jsCharAt_length_of_lt {l : List Char} {i : Nat} (h : i < l.length) :
    (jsCharAt l i).length = 1 := by
  unfold jsCharAt
  rw [dif_pos h]
  rfl

theorem jsCharAt_mem {l : List Char} {i : Nat} (h : i < l.length) {c : Char}
    (hc : c ∈ jsCharAt l i) : c ∈ l := by
  unfold jsCharAt at hc
  rw [dif_pos h, List.mem_singleton] at hc
  exact hc ▸ List.get_mem _ _ _

/-- C10: `generateSecurePassword` terminates for every length (the embedding
is a total function of `length` draws).  With at least one class enabled —
so that every draw index `rnd i = ⌊Math.random()·charset.length⌋` is below the
charset length — the result has exactly `length` characters, each from the
union of the enabled classes; with all four classes disabled the charset is
empty, `charAt` returns the empty string on every draw, and the result is the
empty string (no exception, no divergence). -/
theorem claim_C10_generateSecurePassword (len : Nat)
    (iu il inum isym : Bool) (rnd : Nat → Nat) :
    ((∀ i, rnd i < (pwCharset iu il inum isym).length) →
      (generateSecurePassword len iu il inum isym rnd).length = len
      ∧ ∀ c ∈ generateSecurePassword len iu il inum isym rnd,
          c ∈ pwCharset iu il inum isym)
    ∧ (pwCharset false false false false = []
      ∧ generateSecurePassword len false false false false rnd = []) := by
  constructor
  · intro hr
    constructor
    · rw [generateSecurePassword,
        flatMap_length_one _ _ (fun i _ => jsCharAt_length_of_lt (hr i)),
        List.length_range]
    · intro c hc
      rw [generateSecurePassword, List.mem_flatMap] at hc
      obtain ⟨i, _, hc⟩ := hc
      exact jsCharAt_mem (hr i) hc
  · refine ⟨rfl, ?_⟩
    rw [generateSecurePassword]
    have h0 : ∀ i ∈ List.range len,
        jsCharAt (pwCharset false false false false) (rnd i) = ([] : List Char) := by
      intro i _
      unfold jsCharAt
      rw [dif_neg (by simp [pwCharset])]
    rw [List.flatMap_congr h0]
    · induction List.range len with
      | nil => rfl
      | cons a l ih => rw [List.flatMap_cons, ih, List.nil_append]

theorem claim_C10_generateSecurePassword_witness :
    (0 : Nat) < (pwCharset true true true true).length
    ∧ (generateSecurePassword 12 true true true true (fun _ => 0)).length = 12
    ∧ generateSecurePassword 5 false false false false (fun _ => 0) = [] :=
  ⟨by decide,
    ((claim_C10_generateSecurePassword 12 true true true true (fun _ => 0)).1
      (fun _ => by decide)).1,
    (claim_C10_generateSecurePassword 5 false false false false (fun _ => 0)).2.2⟩

/-- C4 (counterexample): with a TTL of zero, the freshly created token's
expiry equals the verification time, `expiry ≤ now` holds, and yet
`verifySecureToken` accepts the token and returns its payload instead of the
`null` the claim requires for every `expiry ≤ now`. -/
theorem claim_C4_counterexample :
    (1000 + 0 * 60 * 1000 : Int) ≤ 1000
    ∧ verifySecureToken "k".data 1000 (createSecureToken "k".data 1000 "d".data 0)
      = some (canonicalPayloadJson "d".data 1000 (1000 + 0 * 60 * 1000)) := by
  refine ⟨by decide, ?_⟩
  rw [verifySecureToken_createSecureToken, if_neg (by decide)]

/-- C4 (amended): a token is accepted only when its expiry is greater than
**or equal to** the current time at verification (the code rejects exactly
when `now > expiry`): every accepted token whose payload carries a numeric
`expiry` satisfies `now ≤ expiry`, and a freshly created token whose expiry
is strictly below `now` is rejected.  Consequently
`createSecureToken(data, -1)` immediately verified returns `null`, and
`createSecureToken(data, 60)` immediately verified returns a payload whose
data equals the original data. -/
theorem claim_C4_amended_expiry_boundary (key data : List Char) (now : Int) :
    (∀ (token : List Char) (v : JsonV) (q : Rat),
      verifySecureToken key now token = some v →
      jsGetExpiry v = some (JsonV.jnum q) → (now : Rat) ≤ q)
    ∧ (∀ ttl : Int, now + ttl * 60 * 1000 < now →
        verifySecureToken key now (createSecureToken key now data ttl) = none)
    ∧ verifySecureToken key now (createSecureToken key now data (-1)) = none
    ∧ verifySecureToken key now (createSecureToken key now data 60)
      = some (canonicalPayloadJson data now (now + 60 * 60 * 1000)) := by
  refine ⟨fun token v q h hq => ?_, fun ttl hlt => ?_, ?_, ?_⟩
  · rw [verifySecureToken] at h
    split at h
    · exact absurd h (by simp)
    · try simp only [] at h
      split at h
      · exact absurd h (by simp)
      · split at h
        · exact absurd h (by simp)
        · exact absurd h (by simp)
        · split at h
          · exact absurd h (by simp)
          · rename_i hle
            rw [Option.some_inj] at h
            subst h
            rw [hq, jsNowGt] at hle
            simp only [jsToNumber] at hle
            simp only [decide_eq_true_eq] at hle
            exact not_lt.mp hle
  · rw [verifySecureToken_createSecureToken, if_pos (by omega)]
  · rw [verifySecureToken_createSecureToken, if_pos (by omega)]
  · rw [verifySecureToken_createSecureToken, if_neg (by omega)]

theorem claim_C4_amended_expiry_boundary_witness :
    verifySecureToken "k".data 0 (createSecureToken "k".data 0 "d".data (-1)) = none
    ∧ verifySecureToken "k".data 0 (createSecureToken "k".data 0 "d".data 60)
      = some (canonicalPayloadJson "d".data 0 (0 + 60 * 60 * 1000))
    ∧ ((0 : Int) : Rat) ≤ ((0 + 60 * 60 * 1000 : Int) : Rat)
    ∧ (0 + (-1) * 60 * 1000 : Int) < 0 :=
  ⟨(claim_C4_amended_expiry_boundary "k".data "d".data 0).2.2.1,
   (claim_C4_amended_expiry_boundary "k".data "d".data 0).2.2.2,
   (claim_C4_amended_expiry_boundary "k".data "d".data 0).1
     (createSecureToken "k".data 0 "d".data 60)
     (canonicalPayloadJson "d".data 0 (0 + 60 * 60 * 1000))
     ((0 + 60 * 60 * 1000 : Int) : Rat)
     (claim_C4_amended_expiry_boundary "k".data "d".data 0).2.2.2 (by rfl),
   by decide⟩

/-- C7: with two hooks registered on a hook-free manager — the first throwing
(`false` flag), the second succeeding — one `cleanup` call invokes both
exactly once, in registration order (the final world is the second hook's
effect applied after the first's, after the strategy dispatch): the throwing
hook is caught and does not prevent the later hook.  The registry is cleared
regardless (`getDataStatistics().totalGenerated = 0`), and a second
consecutive `cleanup` is safe and a no-op over the empty registry.  The
final conjunct states the general contract: `executeCleanupHooks` applies
every registered hook exactly once, in registration order, feeding each the
previous world irrespective of the throw flags. -/
theorem claim_C7_cleanup_hooks_and_registry {σ : Type}
    (dbC apiC fileC : σ → σ) (strategy : List Char) (m : TestDataManager σ)
    (s s' : σ) (f1 f2 : σ → σ) (hm : m.cleanupHooks = []) :
    (cleanup dbC apiC fileC strategy
        (registerCleanupHook (fun w => (f2 w, true))
          (registerCleanupHook (fun w => (f1 w, false)) m)) s).2
      = f2 (f1 (cleanupDispatch dbC apiC fileC
          (if strategy = "auto".data then m.cleanupStrategy else strategy) s))
    ∧ (cleanup dbC apiC fileC strategy
        (registerCleanupHook (fun w => (f2 w, true))
          (registerCleanupHook (fun w => (f1 w, false)) m)) s).1.generatedData = []
    ∧ (getDataStatistics (cleanup dbC apiC fileC strategy
        (registerCleanupHook (fun w => (f2 w, true))
          (registerCleanupHook (fun w => (f1 w, false)) m)) s).1).totalGenerated = 0
    ∧ (cleanup dbC apiC fileC strategy
        (cleanup dbC apiC fileC strategy
          (registerCleanupHook (fun w => (f2 w, true))
            (registerCleanupHook (fun w => (f1 w, false)) m)) s).1 s').1.generatedData
      = []
    ∧ (∀ (hooks : List (σ → σ × Bool)) (w : σ),
        executeCleanupHooks hooks w = hooks.foldl (fun w h => (h w).1) w) := by
  have hhooks : (registerCleanupHook (fun w => (f2 w, true))
      (registerCleanupHook (fun w => (f1 w, false)) m)).cleanupHooks
      = [fun w => (f1 w, false), fun w => (f2 w, true)] := by
    simp [registerCleanupHook, hm]
  refine ⟨?_, rfl, ?_, rfl, fun hooks w => rfl⟩
  · show executeCleanupHooks (registerCleanupHook (fun w => (f2 w, true))
        (registerCleanupHook (fun w => (f1 w, false)) m)).cleanupHooks
        (cleanupDispatch dbC apiC fileC
          (if strategy = "auto".data then m.cleanupStrategy else strategy) s) = _
    rw [hhooks]
    rfl
  · rfl

theorem claim_C7_cleanup_hooks_and_registry_witness :
    (cleanup (σ := List Nat) id id id "auto".data
        (registerCleanupHook (fun w => (2 :: w, true))
          (registerCleanupHook (fun w => (1 :: w, false))
            ⟨[], [], "none".data, ⟨[], [], 0, 0⟩⟩)) []).2
      = (2 :: 1 :: cleanupDispatch id id id
          (if "auto".data = "auto".data then "none".data else "auto".data) [])
    ∧ (getDataStatistics (cleanup (σ := List Nat) id id id "auto".data
        (registerCleanupHook (fun w => (2 :: w, true))
          (registerCleanupHook (fun w => (1 :: w, false))
            ⟨[], [], "none".data, ⟨[], [], 0, 0⟩⟩)) []).1).totalGenerated = 0 := by
  have h := claim_C7_cleanup_hooks_and_registry (σ := List Nat) id id id "auto".data
    ⟨[], [], "none".data, ⟨[], [], 0, 0⟩⟩ [] [] (1 :: ·) (2 :: ·) (by rfl)
  exact ⟨h.1, h.2.2.1⟩

/-- C9: counterexample.  The claim says every generate operation grows its own
type's sequence by one "leaving every other type's sequence unchanged", but
`generateApiData` on an endpoint containing `/users` routes its `data` field
through `generateDataForEndpoint`, whose nested `generateUser` call also
appends to the registry: starting from an empty registry, the `'user'`
sequence grows from 0 to 1 alongside the `'api'` sequence. -/
theorem claim_C9_counterexample :
    (getGeneratedData "user".data mgr0).length = 0
    ∧ (getGeneratedData "user".data
        (generateApiData fk0 "/users".data "POST".data true false id mgr0).2).length = 1
    ∧ (getGeneratedData "api".data
        (generateApiData fk0 "/users".data "POST".data true false id mgr0).2).length = 1 := by
  refine ⟨rfl, ?_, ?_⟩ <;> rfl

/-- C9 (amended): `generateUser`, `generateProduct` and `generateOrder` each
append exactly the entity they return to the registry under their own type key
(`'user'`, `'product'`, `'order'`), leaving every other type's sequence
unchanged.  `generateApiData` appends exactly its returned record under
`'api'` — but relative to the registry AFTER its nested
`generateDataForEndpoint` call: when the endpoint contains none of `/users`,
`/products`, `/orders`, the nested call stores nothing and every other type is
unchanged; when it does contain one of them, the routed generator has itself
appended one entity, so that type's sequence grows by one as well. -/
theorem claim_C9_amended_registry {σ} (fk : Faker) (m : TestDataManager σ)
    (role : List Char) (domain : Option (List Char)) (ep ipf ipr : Bool)
    (ef : List Char → List Char) (category : Option (List Char))
    (priceRange : Option (Rat × Rat)) (ii irv : Bool)
    (userId : Option (List Char)) (productIds : Option (List (List Char)))
    (status : List Char) (incItems : Bool) (endpoint method : List Char)
    (ih ia : Bool) (ty : List Char) :
    (getGeneratedData "user".data (generateUser fk role domain ep ipf ipr ef m).2
        = getGeneratedData "user".data m
          ++ [.user (generateUser fk role domain ep ipf ipr ef m).1]
      ∧ (ty ≠ "user".data →
          getGeneratedData ty (generateUser fk role domain ep ipf ipr ef m).2
            = getGeneratedData ty m))
    ∧ (getGeneratedData "product".data
          (generateProduct fk category priceRange ii irv m).2
        = getGeneratedData "product".data m
          ++ [.product (generateProduct fk category priceRange ii irv m).1]
      ∧ (ty ≠ "product".data →
          getGeneratedData ty (generateProduct fk category priceRange ii irv m).2
            = getGeneratedData ty m))
    ∧ (getGeneratedData "order".data
          (generateOrder fk userId productIds status incItems m).2
        = getGeneratedData "order".data m
          ++ [.order (generateOrder fk userId productIds status incItems m).1]
      ∧ (ty ≠ "order".data →
          getGeneratedData ty (generateOrder fk userId productIds status incItems m).2
            = getGeneratedData ty m))
    ∧ (getGeneratedData "api".data
          (generateApiData fk endpoint method ih ia ef m).2
        = getGeneratedData "api".data (generateDataForEndpoint fk endpoint ef m).2
          ++ [.api (generateApiData fk endpoint method ih ia ef m).1]
      ∧ (nestedTypeFor endpoint = none → ty ≠ "api".data →
          getGeneratedData ty (generateApiData fk endpoint method ih ia ef m).2
            = getGeneratedData ty m)
      ∧ (∀ nty, nestedTypeFor endpoint = some nty → nty ≠ "api".data →
          (getGeneratedData nty
              (generateApiData fk endpoint method ih ia ef m).2).length
            = (getGeneratedData nty m).length + 1)) := by
  have hu : (generateUser fk role domain ep ipf ipr ef m).2
      = storeGeneratedData "user".data
          (.user (generateUser fk role domain ep ipf ipr ef m).1) m := rfl
  have hp : (generateProduct fk category priceRange ii irv m).2
      = storeGeneratedData "product".data
          (.product (generateProduct fk category priceRange ii irv m).1) m := rfl
  have ho : (generateOrder fk userId productIds status incItems m).2
      = storeGeneratedData "order".data
          (.order (generateOrder fk userId productIds status incItems m).1) m := rfl
  have ha : (generateApiData fk endpoint method ih ia ef m).2
      = storeGeneratedData "api".data
          (.api (generateApiData fk endpoint method ih ia ef m).1)
          (generateDataForEndpoint fk endpoint ef m).2 := rfl
  refine ⟨⟨?_, fun hty => ?_⟩, ⟨?_, fun hty => ?_⟩, ⟨?_, fun hty => ?_⟩,
    ?_, fun hn hty => ?_, fun nty hn hna => ?_⟩
  · rw [hu]; exact getGeneratedData_store_same _ _ _
  · rw [hu]; exact getGeneratedData_store_other hty _ _
  · rw [hp]; exact getGeneratedData_store_same _ _ _
  · rw [hp]; exact getGeneratedData_store_other hty _ _
  · rw [ho]; exact getGeneratedData_store_same _ _ _
  · rw [ho]; exact getGeneratedData_store_other hty _ _
  · rw [ha]; exact getGeneratedData_store_same _ _ _
  · rw [ha, getGeneratedData_store_other hty,
      (generateDataForEndpoint_registry fk endpoint ef m).1 hn]
  · rw [ha, getGeneratedData_store_other hna]
    exact ((generateDataForEndpoint_registry fk endpoint ef m).2 nty hn).1

/-- C9 amended, witnessed at a concrete faker and an empty manager, with the
`/users` endpoint routed through `generateApiData`. -/
theorem claim_C9_amended_registry_witness :
    getGeneratedData "user".data
        (generateUser fk0 "user".data none false true false id mgr0).2
      = getGeneratedData "user".data mgr0
        ++ [.user (generateUser fk0 "user".data none false true false id mgr0).1]
    ∧ getGeneratedData "product".data
        (generateUser fk0 "user".data none false true false id mgr0).2
      = getGeneratedData "product".data mgr0
    ∧ getGeneratedData "api".data
        (generateApiData fk0 "/users".data "POST".data true false id mgr0).2
      = getGeneratedData "api".data
          (generateDataForEndpoint fk0 "/users".data id mgr0).2
        ++ [.api (generateApiData fk0 "/users".data "POST".data true false id mgr0).1]
    ∧ (getGeneratedData "user".data
        (generateApiData fk0 "/users".data "POST".data true false id mgr0).2).length
      = (getGeneratedData "user".data mgr0).length + 1 := by
  have h := claim_C9_amended_registry (σ := Unit) fk0 mgr0 "user".data none false true
    false id none none true false none none "pending".data true "/users".data
    "POST".data true false "product".data
  exact ⟨h.1.1, h.1.2 (by decide), h.2.2.2.1,
    h.2.2.2.2.2 "user".data (by rfl) (by decide)⟩

end PWFW
